import Mathlib

/-!
Disk scheduling: FCFS, SCAN and C-SCAN.

A shallow embedding of `Program.c` (functions `fcfs`, `scan`, `cscan`) and
theorems about the total head movement each policy reports.

Conventions of the embedding:

* in `fcfs`, `scan` and `cscan` a C `int` is read as a mathematical integer
  (`Int`); `fcfs32`, `scan32` and `cscan32` are the same functions with every
  arithmetic operation on the accumulator reduced to 32-bit two's complement
  (`wrap32`);
* the array `requests[]` together with its `count` is one `List Int`
  (`count = requests.length`); `queue[i]` is `queue.getD i 0`, and every
  access made by the code is in bounds;
* the pair `(totalMovement, currentPosition)` is the state threaded through
  the service loops;
* `malloc` is taken to succeed; `scanMem` and `cscanMem` keep the caller's array
  and the allocated `queue` as two separate arrays of a memory state `Mem`.
-/

namespace DiskScheduling

/-- Total number of cylinders (`#define CYLINDERS 5000`). -/
def CYLINDERS : Int := 5000

/-- Moving toward higher cylinder numbers (`#define DIRECTION_OUTWARD 0`). -/
def DIRECTION_OUTWARD : Int := 0

/-- Moving toward lower cylinder numbers (`#define DIRECTION_INWARD 1`). -/
def DIRECTION_INWARD : Int := 1

/-- Body shared by every service loop:
`totalMovement += abs(queue[i] - currentPosition); currentPosition = queue[i];`
on the state `(totalMovement, currentPosition)`. -/
def serve (queue : List Int) (st : Int × Int) (i : Nat) : Int × Int :=
  (st.1 + ((queue.getD i 0 - st.2).natAbs : Int), queue.getD i 0)

/-- The function `fcfs`, `for (i = 0; i < count; i++)` over the requests in arrival order,
with `totalMovement` accumulated as an exact integer; `fcfs32` is the same loop with the
32-bit accumulator of the code. -/
def fcfs (requests : List Int) (initialPosition : Int) : Int :=
  ((List.range requests.length).foldl (serve requests) (0, initialPosition)).1

/-- Body of the inner sort loop:
`if (queue[j] > queue[j + 1]) { tmp = queue[j]; queue[j] = queue[j + 1]; queue[j + 1] = tmp; }`. -/
def swapStep (queue : List Int) (j : Nat) : List Int :=
  if queue.getD j 0 > queue.getD (j + 1) 0 then
    (queue.set j (queue.getD (j + 1) 0)).set (j + 1) (queue.getD j 0)
  else queue

/-- Inner sort loop `for (j = 0; j < count - i - 1; j++)`. -/
def sortPass (count : Nat) (queue : List Int) (i : Nat) : List Int :=
  (List.range (count - i - 1)).foldl swapStep queue

/-- Outer sort loop `for (i = 0; i < count - 1; i++)`. -/
def sortQueue (count : Nat) (queue : List Int) : List Int :=
  (List.range (count - 1)).foldl (sortPass count) queue

/-- Outward split search:
`while (startIndex < count && queue[startIndex] < currentPosition) startIndex++;`
The first argument after `currentPosition` bounds the number of iterations; the loop
runs at most `count` times, see `startOutward_exit_call`. -/
def startOutward (queue : List Int) (count : Nat) (currentPosition : Int) : Nat → Nat → Nat
  | 0, startIndex => startIndex
  | fuel + 1, startIndex =>
    if startIndex < count ∧ queue.getD startIndex 0 < currentPosition then
      startOutward queue count currentPosition fuel (startIndex + 1)
    else startIndex

/-- Inward split search:
`while (startIndex >= 0 && queue[startIndex] > currentPosition) startIndex--;`
The index is a signed integer and may end at `-1`. The first argument after
`currentPosition` bounds the number of iterations; the loop runs at most `count`
times, see `startInward_exit_call`. -/
def startInward (queue : List Int) (currentPosition : Int) : Nat → Int → Int
  | 0, startIndex => startIndex
  | fuel + 1, startIndex =>
    if 0 ≤ startIndex ∧ queue.getD startIndex.toNat 0 > currentPosition then
      startInward queue currentPosition fuel (startIndex - 1)
    else startIndex

/-- Outward boundary pad:
`if (currentPosition < CYLINDERS - 1) { totalMovement += CYLINDERS - 1 - currentPosition; currentPosition = CYLINDERS - 1; }`. -/
def padOutward (st : Int × Int) : Int × Int :=
  if st.2 < CYLINDERS - 1 then (st.1 + (CYLINDERS - 1 - st.2), CYLINDERS - 1) else st

/-- Inward boundary pad:
`if (currentPosition > 0) { totalMovement += currentPosition; currentPosition = 0; }`. -/
def padInward (st : Int × Int) : Int × Int :=
  if st.2 > 0 then (st.1 + st.2, 0) else st

/-- Indices `lo, lo+1, ..., hi-1` of an ascending loop `for (i = lo; i < hi; i++)`. -/
def upFrom (lo hi : Nat) : List Nat := List.range' lo (hi - lo)

/-- The function `scan`. -/
def scan (requests : List Int) (initialPosition direction : Int) : Int :=
  let count := requests.length
  let queue := sortQueue count requests
  if direction = DIRECTION_OUTWARD then
    let startIndex := startOutward queue count initialPosition count 0
    -- for (i = startIndex; i < count; i++)
    let st1 := (upFrom startIndex count).foldl (serve queue) (0, initialPosition)
    let st2 := padOutward st1
    -- for (i = startIndex - 1; i >= 0; i--)
    let st3 := (List.range startIndex).reverse.foldl (serve queue) st2
    st3.1
  else
    let startIndex := startInward queue initialPosition count ((count : Int) - 1)
    -- for (i = startIndex; i >= 0; i--)
    let st1 := (List.range (startIndex + 1).toNat).reverse.foldl (serve queue) (0, initialPosition)
    let st2 := padInward st1
    -- for (i = startIndex + 1; i < count; i++)
    let st3 := (upFrom (startIndex + 1).toNat count).foldl (serve queue) st2
    st3.1

/-- The function `cscan`. -/
def cscan (requests : List Int) (initialPosition direction : Int) : Int :=
  let count := requests.length
  let queue := sortQueue count requests
  if direction = DIRECTION_OUTWARD then
    let startIndex := startOutward queue count initialPosition count 0
    -- for (i = startIndex; i < count; i++)
    let st1 := (upFrom startIndex count).foldl (serve queue) (0, initialPosition)
    let st2 := padOutward st1
    -- totalMovement += CYLINDERS - 1; currentPosition = 0;
    let st3 : Int × Int := (st2.1 + (CYLINDERS - 1), 0)
    -- for (i = 0; i < startIndex; i++)
    let st4 := (List.range startIndex).foldl (serve queue) st3
    st4.1
  else
    let startIndex := startInward queue initialPosition count ((count : Int) - 1)
    -- for (i = startIndex; i >= 0; i--)
    let st1 := (List.range (startIndex + 1).toNat).reverse.foldl (serve queue) (0, initialPosition)
    let st2 := padInward st1
    -- totalMovement += CYLINDERS - 1; currentPosition = CYLINDERS - 1;
    let st3 : Int × Int := (st2.1 + (CYLINDERS - 1), CYLINDERS - 1)
    -- for (i = count - 1; i > startIndex; i--)
    let st4 := (upFrom (startIndex + 1).toNat count).reverse.foldl (serve queue) st3
    st4.1

/-! ## The part of `scan` and `cscan` after the sort, on a given queue -/

/-- Lines 174-229 of `scan`: split search, first pass, boundary pad, second pass. -/
def scanSweep (queue : List Int) (count : Nat) (initialPosition direction : Int) : Int :=
  if direction = DIRECTION_OUTWARD then
    let startIndex := startOutward queue count initialPosition count 0
    let st1 := (upFrom startIndex count).foldl (serve queue) (0, initialPosition)
    let st2 := padOutward st1
    let st3 := (List.range startIndex).reverse.foldl (serve queue) st2
    st3.1
  else
    let startIndex := startInward queue initialPosition count ((count : Int) - 1)
    let st1 := (List.range (startIndex + 1).toNat).reverse.foldl (serve queue) (0, initialPosition)
    let st2 := padInward st1
    let st3 := (upFrom (startIndex + 1).toNat count).foldl (serve queue) st2
    st3.1

/-- Lines 258-321 of `cscan`: split search, first pass, boundary pad, jump, second pass. -/
def cscanSweep (queue : List Int) (count : Nat) (initialPosition direction : Int) : Int :=
  if direction = DIRECTION_OUTWARD then
    let startIndex := startOutward queue count initialPosition count 0
    let st1 := (upFrom startIndex count).foldl (serve queue) (0, initialPosition)
    let st2 := padOutward st1
    let st3 : Int × Int := (st2.1 + (CYLINDERS - 1), 0)
    let st4 := (List.range startIndex).foldl (serve queue) st3
    st4.1
  else
    let startIndex := startInward queue initialPosition count ((count : Int) - 1)
    let st1 := (List.range (startIndex + 1).toNat).reverse.foldl (serve queue) (0, initialPosition)
    let st2 := padInward st1
    let st3 : Int × Int := (st2.1 + (CYLINDERS - 1), CYLINDERS - 1)
    let st4 := (upFrom (startIndex + 1).toNat count).reverse.foldl (serve queue) st3
    st4.1

/-! ## The same functions with a 32-bit accumulator -/

/-- Reduction of an integer to the 32-bit two's complement range `[-2^31, 2^31)`. -/
def wrap32 (x : Int) : Int := (x + 2147483648) % 4294967296 - 2147483648

/-- The loop body `serve` with every `int` operation reduced by `wrap32`. -/
def serve32 (queue : List Int) (st : Int × Int) (i : Nat) : Int × Int :=
  (wrap32 (st.1 + ((wrap32 (queue.getD i 0 - st.2)).natAbs : Int)), queue.getD i 0)

/-- The function `fcfs` with a 32-bit accumulator. -/
def fcfs32 (requests : List Int) (initialPosition : Int) : Int :=
  ((List.range requests.length).foldl (serve32 requests) (0, initialPosition)).1

/-- The outward boundary pad with a 32-bit accumulator. -/
def padOutward32 (st : Int × Int) : Int × Int :=
  if st.2 < CYLINDERS - 1 then
    (wrap32 (st.1 + wrap32 (CYLINDERS - 1 - st.2)), CYLINDERS - 1)
  else st

/-- The inward boundary pad with a 32-bit accumulator. -/
def padInward32 (st : Int × Int) : Int × Int :=
  if st.2 > 0 then (wrap32 (st.1 + st.2), 0) else st

/-- Lines 174-229 of `scan` with a 32-bit accumulator. -/
def scanSweep32 (queue : List Int) (count : Nat) (initialPosition direction : Int) : Int :=
  if direction = DIRECTION_OUTWARD then
    let startIndex := startOutward queue count initialPosition count 0
    let st1 := (upFrom startIndex count).foldl (serve32 queue) (0, initialPosition)
    let st2 := padOutward32 st1
    let st3 := (List.range startIndex).reverse.foldl (serve32 queue) st2
    st3.1
  else
    let startIndex := startInward queue initialPosition count ((count : Int) - 1)
    let st1 :=
      (List.range (startIndex + 1).toNat).reverse.foldl (serve32 queue) (0, initialPosition)
    let st2 := padInward32 st1
    let st3 := (upFrom (startIndex + 1).toNat count).foldl (serve32 queue) st2
    st3.1

/-- Lines 258-321 of `cscan` with a 32-bit accumulator. -/
def cscanSweep32 (queue : List Int) (count : Nat) (initialPosition direction : Int) : Int :=
  if direction = DIRECTION_OUTWARD then
    let startIndex := startOutward queue count initialPosition count 0
    let st1 := (upFrom startIndex count).foldl (serve32 queue) (0, initialPosition)
    let st2 := padOutward32 st1
    let st3 : Int × Int := (wrap32 (st2.1 + (CYLINDERS - 1)), 0)
    let st4 := (List.range startIndex).foldl (serve32 queue) st3
    st4.1
  else
    let startIndex := startInward queue initialPosition count ((count : Int) - 1)
    let st1 :=
      (List.range (startIndex + 1).toNat).reverse.foldl (serve32 queue) (0, initialPosition)
    let st2 := padInward32 st1
    let st3 : Int × Int := (wrap32 (st2.1 + (CYLINDERS - 1)), CYLINDERS - 1)
    let st4 := (upFrom (startIndex + 1).toNat count).reverse.foldl (serve32 queue) st3
    st4.1

/-- The function `scan` with a 32-bit accumulator. -/
def scan32 (requests : List Int) (initialPosition direction : Int) : Int :=
  scanSweep32 (sortQueue requests.length requests) requests.length initialPosition direction

/-- The function `cscan` with a 32-bit accumulator. -/
def cscan32 (requests : List Int) (initialPosition direction : Int) : Int :=
  cscanSweep32 (sortQueue requests.length requests) requests.length initialPosition direction

/-! ## `scan` and `cscan` on an explicit memory state -/

/-- The two arrays a call of `scan` or `cscan` works on: the caller's `requests` and the
block `queue` returned by `malloc`. -/
structure Mem where
  /-- The caller's array. -/
  requests : List Int
  /-- The allocated working copy. -/
  queue : List Int

/-- Body of the copy loop: `queue[i] = requests[i];`. -/
def copyStep (m : Mem) (i : Nat) : Mem :=
  { requests := m.requests, queue := m.queue.set i (m.requests.getD i 0) }

/-- Body of the inner sort loop on the memory state: it reads and writes `queue` only. -/
def swapStepMem (m : Mem) (j : Nat) : Mem :=
  { requests := m.requests, queue := swapStep m.queue j }

/-- Inner sort loop on the memory state. -/
def sortPassMem (count : Nat) (m : Mem) (i : Nat) : Mem :=
  (List.range (count - i - 1)).foldl swapStepMem m

/-- Lines 154-172 of `scan` (and 238-256 of `cscan`): allocation, copy loop and sort
loops. `garbage` is the unspecified initial content of the allocated block. -/
def prepareMem (requests garbage : List Int) (count : Nat) : Mem :=
  let m0 : Mem := { requests := requests, queue := garbage }
  let m1 := (List.range count).foldl copyStep m0
  (List.range (count - 1)).foldl (sortPassMem count) m1

/-- The function `scan` on the memory state: the total returned and the content of the
caller's array after the call (`queue` is freed). -/
def scanMem (requests garbage : List Int) (initialPosition direction : Int) :
    Int × List Int :=
  let m := prepareMem requests garbage requests.length
  (scanSweep m.queue requests.length initialPosition direction, m.requests)

/-- The function `cscan` on the memory state: the total returned and the content of the
caller's array after the call (`queue` is freed). -/
def cscanMem (requests garbage : List Int) (initialPosition direction : Int) :
    Int × List Int :=
  let m := prepareMem requests garbage requests.length
  (cscanSweep m.queue requests.length initialPosition direction, m.requests)

/-! ## Auxiliary definitions used in the proofs -/

/-- One service step on a request value: the body of `serve` with `queue[i]` already read. -/
def visit (st : Int × Int) (x : Int) : Int × Int :=
  (st.1 + ((x - st.2).natAbs : Int), x)

/-- Recursive description of `n` compare-and-swap steps starting at the head of a list. -/
def bubble : Nat → List Int → List Int
  | n + 1, a :: b :: rest =>
    if a > b then b :: bubble n (a :: rest) else a :: bubble n (b :: rest)
  | _, l => l

/-- Requests alternating between cylinder 4999 and cylinder 0, `n` of them. -/
def zigzag (n : Nat) : List Int :=
  (List.range n).map (fun i => if i % 2 = 0 then 4999 else 0)

/-! ## Service loops as folds over request values -/

theorem serve_eq_visit (queue : List Int) (st : Int × Int) (i : Nat) :
    serve queue st i = visit st (queue.getD i 0) := rfl

theorem foldl_serve_eq (queue : List Int) (idx : List Nat) (st : Int × Int) :
    idx.foldl (serve queue) st = (idx.map (fun i => queue.getD i 0)).foldl visit st := by
  induction idx generalizing st with
  | nil => rfl
  | cons i rest ih => simp [List.foldl_cons, ih, serve_eq_visit]

theorem map_getD_upFrom (queue : List Int) (k : Nat) (hk : k ≤ queue.length) :
    (upFrom k queue.length).map (fun i => queue.getD i 0) = queue.drop k := by
  apply List.ext_getElem
  · simp [upFrom]
  · intro n h1 h2
    simp only [upFrom, List.length_map, List.length_range', List.length_drop] at h1 h2
    simp only [upFrom, List.getElem_map, List.getElem_range', List.getElem_drop, one_mul]
    rw [List.getD_eq_getElem _ _ (by omega)]

theorem map_getD_range (queue : List Int) (k : Nat) (hk : k ≤ queue.length) :
    (List.range k).map (fun i => queue.getD i 0) = queue.take k := by
  apply List.ext_getElem
  · simp [hk]
  · intro n h1 h2
    simp only [List.length_map, List.length_range, List.length_take] at h1 h2
    simp only [List.getElem_map, List.getElem_range, List.getElem_take]
    rw [List.getD_eq_getElem _ _ (by omega)]

/-- Ascending loop over `queue[k..count-1]`. -/
theorem foldl_serve_upFrom (queue : List Int) (k : Nat) (hk : k ≤ queue.length) (st : Int × Int) :
    (upFrom k queue.length).foldl (serve queue) st = (queue.drop k).foldl visit st := by
  rw [foldl_serve_eq, map_getD_upFrom queue k hk]

/-- Descending loop over `queue[count-1..k]`. -/
theorem foldl_serve_upFrom_reverse (queue : List Int) (k : Nat) (hk : k ≤ queue.length)
    (st : Int × Int) :
    (upFrom k queue.length).reverse.foldl (serve queue) st
      = (queue.drop k).reverse.foldl visit st := by
  rw [foldl_serve_eq, List.map_reverse, map_getD_upFrom queue k hk]

/-- Ascending loop over `queue[0..k-1]`. -/
theorem foldl_serve_range (queue : List Int) (k : Nat) (hk : k ≤ queue.length) (st : Int × Int) :
    (List.range k).foldl (serve queue) st = (queue.take k).foldl visit st := by
  rw [foldl_serve_eq, map_getD_range queue k hk]

/-- Descending loop over `queue[k-1..0]`. -/
theorem foldl_serve_range_reverse (queue : List Int) (k : Nat) (hk : k ≤ queue.length)
    (st : Int × Int) :
    (List.range k).reverse.foldl (serve queue) st = (queue.take k).reverse.foldl visit st := by
  rw [foldl_serve_eq, List.map_reverse, map_getD_range queue k hk]

/-- A pass over values that never decrease moves the head from `c` to the last value. -/
theorem foldl_visit_ascending (l : List Int) (t c : Int) (h : List.Chain (· ≤ ·) c l) :
    l.foldl visit (t, c) = (t + (l.getLastD c - c), l.getLastD c) := by
  induction l generalizing t c with
  | nil => simp
  | cons x xs ih =>
    rw [List.chain_cons] at h
    rw [List.foldl_cons, visit, ih _ _ h.2]
    have hx : ((x - c).natAbs : Int) = x - c := Int.natAbs_of_nonneg (by omega)
    simp only [hx, List.getLastD_cons]
    refine Prod.ext ?_ rfl
    simp only
    ring

/-- A pass over values that never increase moves the head from `c` to the last value. -/
theorem foldl_visit_descending (l : List Int) (t c : Int) (h : List.Chain (· ≥ ·) c l) :
    l.foldl visit (t, c) = (t + (c - l.getLastD c), l.getLastD c) := by
  induction l generalizing t c with
  | nil => simp
  | cons x xs ih =>
    rw [List.chain_cons] at h
    rw [List.foldl_cons, visit, ih _ _ h.2]
    have hx : ((x - c).natAbs : Int) = c - x := by
      have := h.1
      omega
    simp only [hx, List.getLastD_cons]
    refine Prod.ext ?_ rfl
    simp only
    ring

/-! ## The sort loops -/

theorem bubble_zero (l : List Int) : bubble 0 l = l := by
  cases l <;> rfl

theorem swapStep_append (pre rest : List Int) (a b : Int) :
    swapStep (pre ++ a :: b :: rest) pre.length
      = pre ++ (if a > b then b :: a :: rest else a :: b :: rest) := by
  have h0 : (pre ++ a :: b :: rest).getD pre.length 0 = a := by
    rw [List.getD_eq_getElem?_getD, List.getElem?_append_right (le_refl _)]
    simp
  have h1 : (pre ++ a :: b :: rest).getD (pre.length + 1) 0 = b := by
    rw [List.getD_eq_getElem?_getD, List.getElem?_append_right (Nat.le_succ _)]
    simp
  unfold swapStep
  rw [h0, h1]
  split
  · rw [List.set_append_right _ _ (le_refl _), Nat.sub_self, List.set_cons_zero,
      List.set_append_right _ _ (Nat.le_succ _)]
    simp
  · rfl

theorem foldl_swapStep (n : Nat) (pre l : List Int) (hn : n < l.length) :
    (List.range' pre.length n).foldl swapStep (pre ++ l) = pre ++ bubble n l := by
  induction n generalizing pre l with
  | zero => simp [bubble_zero]
  | succ n ih =>
    match l, hn with
    | a :: b :: rest, hn =>
      rw [List.range'_succ, List.foldl_cons, swapStep_append]
      have hlen : n < rest.length + 1 := by
        simp only [List.length_cons] at hn
        omega
      by_cases hab : a > b
      · have h := ih (pre ++ [b]) (a :: rest) (by simpa using hlen)
        simp only [List.length_append, List.length_singleton, List.append_assoc,
          List.singleton_append] at h
        simp [hab, bubble, h]
      · have h := ih (pre ++ [a]) (b :: rest) (by simpa using hlen)
        simp only [List.length_append, List.length_singleton, List.append_assoc,
          List.singleton_append] at h
        simp [hab, bubble, h]

/-- The inner loop of pass `i` is `count - i - 1` compare-and-swap steps from the head. -/
theorem sortPass_eq_bubble (count i : Nat) (queue : List Int)
    (h : count - i - 1 < queue.length) :
    sortPass count queue i = bubble (count - i - 1) queue := by
  have := foldl_swapStep (count - i - 1) [] queue h
  simpa [sortPass, List.range_eq_range'] using this

theorem bubble_append (n : Nat) (l back : List Int) (hn : n < l.length) :
    bubble n (l ++ back) = bubble n l ++ back := by
  induction n generalizing l with
  | zero => simp [bubble_zero]
  | succ n ih =>
    match l, hn with
    | a :: b :: rest, hn =>
      have hlen : n < rest.length + 1 := by
        simp only [List.length_cons] at hn
        omega
      by_cases hab : a > b
      · have h := ih (a :: rest) (by simpa using hlen)
        simp only [List.cons_append] at h
        simp [bubble, hab, h]
      · have h := ih (b :: rest) (by simpa using hlen)
        simp only [List.cons_append] at h
        simp [bubble, hab, h]

theorem bubble_perm (n : Nat) (l : List Int) : (bubble n l).Perm l := by
  induction n generalizing l with
  | zero => rw [bubble_zero]
  | succ n ih =>
    match l with
    | [] => simp [bubble]
    | [a] => simp [bubble]
    | a :: b :: rest =>
      by_cases hab : a > b
      · simp only [bubble, hab, if_true]
        exact ((ih (a :: rest)).cons b).trans (List.Perm.swap a b rest)
      · simp only [bubble, hab, if_false]
        exact (ih (b :: rest)).cons a

/-- After `n` steps on a list of `n + 1` values the largest value is last. -/
theorem bubble_last (n : Nat) (l : List Int) (hl : l.length = n + 1) :
    ∃ front mx, bubble n l = front ++ [mx] ∧ ∀ x ∈ front, x ≤ mx := by
  induction n generalizing l with
  | zero =>
    match l, hl with
    | [a], _ => exact ⟨[], a, by simp [bubble_zero], by simp⟩
  | succ n ih =>
    match l, hl with
    | a :: b :: rest, hl =>
      have hlen : rest.length + 1 = n + 1 := by
        simp only [List.length_cons] at hl
        omega
      by_cases hab : a > b
      · obtain ⟨front, mx, hb, hmx⟩ := ih (a :: rest) (by simpa using hlen)
        refine ⟨b :: front, mx, by simp [bubble, hab, hb], ?_⟩
        have ha : a ∈ front ++ [mx] := by
          rw [← hb]
          exact (bubble_perm n (a :: rest)).symm.subset (List.mem_cons_self a rest)
        intro x hx
        rcases List.mem_cons.1 hx with rfl | hx
        · rcases List.mem_append.1 ha with h | h
          · have := hmx a h
            omega
          · simp only [List.mem_singleton] at h
            omega
        · exact hmx x hx
      · obtain ⟨front, mx, hb, hmx⟩ := ih (b :: rest) (by simpa using hlen)
        refine ⟨a :: front, mx, by simp [bubble, hab, hb], ?_⟩
        have hb2 : b ∈ front ++ [mx] := by
          rw [← hb]
          exact (bubble_perm n (b :: rest)).symm.subset (List.mem_cons_self b rest)
        intro x hx
        rcases List.mem_cons.1 hx with rfl | hx
        · rcases List.mem_append.1 hb2 with h | h
          · have := hmx b h
            omega
          · simp only [List.mem_singleton] at h
            omega
        · exact hmx x hx

/-- Invariant of the outer loop after `n` passes: the last `n` cells are sorted and
dominate the unsorted front. -/
theorem sortQueue_invariant (r : List Int) (n : Nat) (hn : n ≤ r.length - 1) :
    ∃ front back, (List.range n).foldl (sortPass r.length) r = front ++ back ∧
      back.length = n ∧ (front ++ back).Perm r ∧ back.Sorted (· ≤ ·) ∧
      ∀ x ∈ front, ∀ y ∈ back, x ≤ y := by
  induction n with
  | zero => exact ⟨r, [], by simp, rfl, by simp, List.sorted_nil, by simp⟩
  | succ n ih =>
    obtain ⟨front, back, hq, hlen, hperm, hsorted, hle⟩ := ih (by omega)
    have hfl : front.length = r.length - n := by
      have := hperm.length_eq
      simp only [List.length_append] at this
      omega
    rw [List.range_succ, List.foldl_append, hq, List.foldl_cons, List.foldl_nil,
      sortPass_eq_bubble _ _ _ (by simp only [List.length_append]; omega),
      bubble_append _ _ _ (by omega)]
    obtain ⟨front2, mx, hb, hmx⟩ := bubble_last (r.length - n - 1) front (by omega)
    have hp2 : (front2 ++ [mx]).Perm front := hb ▸ bubble_perm _ front
    refine ⟨front2, mx :: back, by simp [hb], by simp [hlen], ?_, ?_, ?_⟩
    · have : (front2 ++ mx :: back) = (front2 ++ [mx]) ++ back := by simp
      rw [this]
      exact (hp2.append_right back).trans hperm
    · refine List.sorted_cons.2 ⟨fun y hy => hle mx (hp2.subset (by simp)) y hy, hsorted⟩
    · intro x hx y hy
      rcases List.mem_cons.1 hy with rfl | hy
      · exact hmx x hx
      · exact hle x (hp2.subset (by simp [hx])) y hy

/-- The nested sort loops leave an ascending permutation of the requests. -/
theorem sortQueue_sorted_perm (r : List Int) :
    (sortQueue r.length r).Sorted (· ≤ ·) ∧ (sortQueue r.length r).Perm r := by
  obtain ⟨front, back, hq, hlen, hperm, hsorted, hle⟩ :=
    sortQueue_invariant r (r.length - 1) (le_refl _)
  unfold sortQueue
  rw [hq]
  refine ⟨?_, hperm⟩
  have hfl : front.length ≤ 1 := by
    have := hperm.length_eq
    simp only [List.length_append] at this
    omega
  match front, hfl, hle with
  | [], _, _ => simpa using hsorted
  | [a], _, hle =>
    exact List.sorted_cons.2 ⟨fun y hy => hle a (by simp) y hy, hsorted⟩

/-! ## The split index -/

/-- The outward search leaves the loop by its own condition within `count` iterations. -/
theorem startOutward_exit (queue : List Int) (count : Nat) (p : Int) (fuel s : Nat)
    (h : count ≤ s + fuel) :
    ¬ (startOutward queue count p fuel s < count ∧
        queue.getD (startOutward queue count p fuel s) 0 < p) := by
  induction fuel generalizing s with
  | zero =>
    simp only [startOutward]
    omega
  | succ fuel ih =>
    simp only [startOutward]
    split
    · exact ih (s + 1) (by omega)
    · assumption

/-- The inward search leaves the loop by its own condition within `s + 1` iterations. -/
theorem startInward_exit (queue : List Int) (p : Int) (fuel : Nat) (s : Int)
    (h : s + 1 ≤ fuel) :
    ¬ (0 ≤ startInward queue p fuel s ∧
        queue.getD (startInward queue p fuel s).toNat 0 > p) := by
  induction fuel generalizing s with
  | zero =>
    simp only [startInward]
    omega
  | succ fuel ih =>
    simp only [startInward]
    split
    · exact ih (s - 1) (by omega)
    · assumption

/-- The call made by `scan` and `cscan` gives the outward search all the iterations it
can use. -/
theorem startOutward_exit_call (queue : List Int) (count : Nat) (p : Int) :
    ¬ (startOutward queue count p count 0 < count ∧
        queue.getD (startOutward queue count p count 0) 0 < p) :=
  startOutward_exit queue count p count 0 (by omega)

/-- The call made by `scan` and `cscan` gives the inward search all the iterations it
can use. -/
theorem startInward_exit_call (queue : List Int) (count : Nat) (p : Int) :
    ¬ (0 ≤ startInward queue p count ((count : Int) - 1) ∧
        queue.getD (startInward queue p count ((count : Int) - 1)).toNat 0 > p) :=
  startInward_exit queue p count ((count : Int) - 1) (by omega)

theorem startOutward_eq (queue : List Int) (p : Int) (fuel s : Nat)
    (h1 : queue.length ≤ s + fuel) (h2 : s ≤ queue.length) :
    startOutward queue queue.length p fuel s
      = s + ((queue.drop s).takeWhile (fun x => decide (x < p))).length := by
  induction fuel generalizing s with
  | zero =>
    have hs : s = queue.length := by omega
    subst hs
    simp [startOutward]
  | succ fuel ih =>
    simp only [startOutward]
    by_cases hs : s < queue.length
    · have hd : queue.drop s = queue[s] :: queue.drop (s + 1) := List.drop_eq_getElem_cons hs
      have hg : queue.getD s 0 = queue[s] := List.getD_eq_getElem _ _ hs
      by_cases hlt : queue[s] < p
      · rw [if_pos ⟨hs, hg ▸ hlt⟩, ih (s + 1) (by omega) (by omega), hd]
        simp only [List.takeWhile_cons, hlt, decide_True, if_true, List.length_cons]
        omega
      · rw [if_neg (fun hc => hlt (hg ▸ hc.2)), hd]
        simp [List.takeWhile_cons, hlt]
    · have hs2 : s = queue.length := by omega
      subst hs2
      simp

theorem startInward_eq (queue : List Int) (p : Int) (fuel n : Nat)
    (h1 : n ≤ fuel) (h2 : n ≤ queue.length) :
    startInward queue p fuel ((n : Int) - 1)
      = (((queue.take n).rdropWhile (fun x => decide (x > p))).length : Int) - 1 := by
  induction fuel generalizing n with
  | zero =>
    have hn : n = 0 := by omega
    subst hn
    simp [startInward]
  | succ fuel ih =>
    simp only [startInward]
    match n, h1, h2 with
    | 0, _, _ => simp
    | n + 1, h1, h2 =>
      have hn : n < queue.length := by omega
      have hcast : (((n + 1 : Nat) : Int) - 1) = (n : Int) := by push_cast; ring
      have hg : queue.getD n 0 = queue[n] := List.getD_eq_getElem _ _ hn
      have ht : queue.take (n + 1) = queue.take n ++ [queue[n]] := by
        rw [List.take_succ, List.getElem?_eq_getElem hn]
        rfl
      rw [hcast, Int.toNat_ofNat, hg, ht]
      by_cases hgt : queue[n] > p
      · rw [if_pos ⟨Int.ofNat_nonneg n, hgt⟩, ih n (by omega) (by omega),
          List.rdropWhile_concat_pos _ _ _ (by simpa using hgt)]
      · rw [if_neg (fun hc => hgt hc.2),
          List.rdropWhile_concat_neg _ _ _ (by simpa using hgt), List.length_append,
          List.length_take, List.length_singleton, Nat.min_eq_left (by omega)]
        push_cast
        ring

theorem rdropWhile_append_rtakeWhile (P : Int → Bool) (l : List Int) :
    l.rdropWhile P ++ l.rtakeWhile P = l := by
  have h := congrArg List.reverse (List.takeWhile_append_dropWhile P l.reverse)
  rw [List.reverse_append, List.reverse_reverse] at h
  exact h

/-- Outward split of the sorted queue: the requests strictly below the head position
come first, `startIndex` is their number. -/
theorem queue_split_outward (r : List Int) (p : Int) :
    ∃ lo hi, sortQueue r.length r = lo ++ hi ∧
      startOutward (sortQueue r.length r) r.length p r.length 0 = lo.length ∧
      (lo ++ hi).Sorted (· ≤ ·) ∧ (lo ++ hi).Perm r ∧
      (∀ x ∈ lo, x < p) ∧ (∀ x ∈ hi, p ≤ x) := by
  obtain ⟨hsorted, hperm⟩ := sortQueue_sorted_perm r
  set q := sortQueue r.length r with hq
  have hlen : q.length = r.length := hperm.length_eq
  have hsplit : q.takeWhile (fun x => decide (x < p)) ++ q.dropWhile (fun x => decide (x < p)) = q :=
    List.takeWhile_append_dropWhile _ q
  refine ⟨q.takeWhile (fun x => decide (x < p)), q.dropWhile (fun x => decide (x < p)),
    hsplit.symm, ?_, hsplit.symm ▸ hsorted, hsplit.symm ▸ hperm, ?_, ?_⟩
  · have := startOutward_eq q p q.length 0 (by omega) (by omega)
    rw [hlen] at this
    simpa using this
  · intro x hx
    simpa using List.mem_takeWhile_imp hx
  · intro x hx
    have hs : (q.dropWhile (fun x => decide (x < p))).Sorted (· ≤ ·) :=
      hsorted.sublist (List.dropWhile_sublist _)
    match hd : q.dropWhile (fun x => decide (x < p)), hx, hs with
    | a :: t, hx, hs =>
      have hne : q.dropWhile (fun x => decide (x < p)) ≠ [] := by simp [hd]
      have ha := List.head_dropWhile_not (fun x => decide (x < p)) q hne
      simp only [hd, List.head_cons, decide_eq_false_iff_not] at ha
      rcases List.mem_cons.1 hx with rfl | hx
      · omega
      · have := List.rel_of_sorted_cons hs x hx
        omega

/-- Inward split of the sorted queue: the requests at or below the head position come
first, `startIndex + 1` is their number. -/
theorem queue_split_inward (r : List Int) (p : Int) :
    ∃ lo hi, sortQueue r.length r = lo ++ hi ∧
      startInward (sortQueue r.length r) p r.length ((r.length : Int) - 1)
        = (lo.length : Int) - 1 ∧
      (lo ++ hi).Sorted (· ≤ ·) ∧ (lo ++ hi).Perm r ∧
      (∀ x ∈ lo, x ≤ p) ∧ (∀ x ∈ hi, p < x) := by
  obtain ⟨hsorted, hperm⟩ := sortQueue_sorted_perm r
  set q := sortQueue r.length r with hq
  have hlen : q.length = r.length := hperm.length_eq
  have hsplit : q.rdropWhile (fun x => decide (x > p)) ++ q.rtakeWhile (fun x => decide (x > p)) = q :=
    rdropWhile_append_rtakeWhile _ q
  refine ⟨q.rdropWhile (fun x => decide (x > p)), q.rtakeWhile (fun x => decide (x > p)),
    hsplit.symm, ?_, hsplit.symm ▸ hsorted, hsplit.symm ▸ hperm, ?_, ?_⟩
  · have := startInward_eq q p q.length q.length (le_refl _) (le_refl _)
    rw [List.take_length, hlen] at this
    simpa using this
  · intro x hx
    have hs : (q.rdropWhile (fun x => decide (x > p))).Sorted (· ≤ ·) :=
      hsorted.sublist (List.rdropWhile_prefix _ _).sublist
    have hne : q.rdropWhile (fun x => decide (x > p)) ≠ [] := List.ne_nil_of_mem hx
    have hlast := List.rdropWhile_last_not (fun x => decide (x > p)) q hne
    simp only [decide_eq_true_eq] at hlast
    rw [← List.dropLast_append_getLast hne] at hx hs
    rcases List.mem_append.1 hx with h | h
    · have := (List.pairwise_append.1 hs).2.2 x h _ (List.mem_singleton_self _)
      omega
    · rw [List.mem_singleton] at h
      omega
  · intro x hx
    simpa using List.mem_rtakeWhile_imp hx

/-! ## Closed forms on the split queue -/

theorem padOutward_of_le (t c : Int) (h : c ≤ CYLINDERS - 1) :
    padOutward (t, c) = (t + (CYLINDERS - 1 - c), CYLINDERS - 1) := by
  unfold padOutward
  split
  · rfl
  · rename_i hc
    simp only [not_lt] at hc
    have hc2 : c = CYLINDERS - 1 := le_antisymm h hc
    refine Prod.ext ?_ hc2
    simp only [hc2]
    ring

theorem padInward_of_nonneg (t c : Int) (h : 0 ≤ c) : padInward (t, c) = (t + c, 0) := by
  unfold padInward
  split
  · rfl
  · rename_i hc
    simp only [gt_iff_lt, not_lt] at hc
    have hc2 : c = 0 := le_antisymm hc h
    refine Prod.ext ?_ hc2
    simp only [hc2]
    ring

theorem getLastD_prop (P : Int → Prop) (l : List Int) (d : Int) (hd : P d)
    (hl : ∀ x ∈ l, P x) : P (l.getLastD d) := by
  induction l generalizing d with
  | nil => exact hd
  | cons x xs ih =>
    rw [List.getLastD_cons]
    exact ih x (hl x (List.mem_cons_self x xs)) (fun y hy => hl y (List.mem_cons_of_mem x hy))

theorem getLastD_reverse (l : List Int) (d : Int) : l.reverse.getLastD d = l.headD d := by
  cases l with
  | nil => rfl
  | cons a t => rw [List.reverse_cons, List.getLastD_concat, List.headD_cons]

theorem chain_le_of_sorted (c : Int) (l : List Int) (hs : l.Sorted (· ≤ ·))
    (hc : ∀ x ∈ l, c ≤ x) : List.Chain (· ≤ ·) c l :=
  List.chain_iff_pairwise.2 (List.pairwise_cons.2 ⟨hc, hs⟩)

theorem chain_ge_reverse_of_sorted (c : Int) (l : List Int) (hs : l.Sorted (· ≤ ·))
    (hc : ∀ x ∈ l, x ≤ c) : List.Chain (· ≥ ·) c l.reverse := by
  refine List.chain_iff_pairwise.2 (List.pairwise_cons.2 ⟨?_, ?_⟩)
  · intro x hx
    exact hc x (List.mem_reverse.1 hx)
  · exact List.pairwise_reverse.2 hs

/-- The smallest member of a sorted list is its head. -/
theorem headD_eq_of_least (l : List Int) (d m : Int) (hs : l.Sorted (· ≤ ·)) (hm : m ∈ l)
    (hmin : ∀ x ∈ l, m ≤ x) : l.headD d = m := by
  match l, hs, hm, hmin with
  | a :: t, hs, hm, hmin =>
    rw [List.headD_cons]
    rcases List.mem_cons.1 hm with rfl | hm
    · rfl
    · have h1 := List.rel_of_sorted_cons hs m hm
      have h2 := hmin a (List.mem_cons_self a t)
      omega

/-- The largest member of a sorted list is its last element. -/
theorem getLastD_eq_of_greatest (l : List Int) (d m : Int) (hs : l.Sorted (· ≤ ·)) (hm : m ∈ l)
    (hmax : ∀ x ∈ l, x ≤ m) : l.getLastD d = m := by
  have hne : l ≠ [] := List.ne_nil_of_mem hm
  have hl := List.dropLast_append_getLast hne
  have hlast : l.getLastD d = l.getLast hne := by
    conv_lhs => rw [← hl]
    rw [List.getLastD_concat]
  rw [hlast]
  have h2 := hmax _ (List.getLast_mem hne)
  rw [← hl] at hm hs
  rcases List.mem_append.1 hm with h | h
  · have := (List.pairwise_append.1 hs).2.2 m h _ (List.mem_singleton_self _)
    omega
  · rw [List.mem_singleton] at h
    exact h.symm

theorem scan_outward_split (r lo hi : List Int) (p : Int)
    (hq : sortQueue r.length r = lo ++ hi)
    (hs : startOutward (sortQueue r.length r) r.length p r.length 0 = lo.length) :
    scan r p DIRECTION_OUTWARD
      = (lo.reverse.foldl visit (padOutward (hi.foldl visit (0, p)))).1 := by
  have hlen : r.length = (lo ++ hi).length := by rw [← hq, (sortQueue_sorted_perm r).2.length_eq]
  have hk : lo.length ≤ (lo ++ hi).length := by simp
  unfold scan
  simp only [if_pos]
  rw [hs, hq, hlen, foldl_serve_upFrom _ _ hk, foldl_serve_range_reverse _ _ hk,
    List.drop_left, List.take_left]

theorem cscan_outward_split (r lo hi : List Int) (p : Int)
    (hq : sortQueue r.length r = lo ++ hi)
    (hs : startOutward (sortQueue r.length r) r.length p r.length 0 = lo.length) :
    cscan r p DIRECTION_OUTWARD
      = (lo.foldl visit ((padOutward (hi.foldl visit (0, p))).1 + (CYLINDERS - 1), 0)).1 := by
  have hlen : r.length = (lo ++ hi).length := by rw [← hq, (sortQueue_sorted_perm r).2.length_eq]
  have hk : lo.length ≤ (lo ++ hi).length := by simp
  unfold cscan
  simp only [if_pos]
  rw [hs, hq, hlen, foldl_serve_upFrom _ _ hk, foldl_serve_range _ _ hk,
    List.drop_left, List.take_left]

theorem scan_inward_split (r lo hi : List Int) (p d : Int) (hd : d ≠ DIRECTION_OUTWARD)
    (hq : sortQueue r.length r = lo ++ hi)
    (hs : startInward (sortQueue r.length r) p r.length ((r.length : Int) - 1)
      = (lo.length : Int) - 1) :
    scan r p d = (hi.foldl visit (padInward (lo.reverse.foldl visit (0, p)))).1 := by
  have hlen : r.length = (lo ++ hi).length := by rw [← hq, (sortQueue_sorted_perm r).2.length_eq]
  have hk : lo.length ≤ (lo ++ hi).length := by simp
  have hn : ((lo.length : Int) - 1 + 1).toNat = lo.length := by simp
  unfold scan
  simp only [if_neg hd]
  rw [hs, hn, hq, hlen, foldl_serve_upFrom _ _ hk, foldl_serve_range_reverse _ _ hk,
    List.drop_left, List.take_left]

theorem cscan_inward_split (r lo hi : List Int) (p d : Int) (hd : d ≠ DIRECTION_OUTWARD)
    (hq : sortQueue r.length r = lo ++ hi)
    (hs : startInward (sortQueue r.length r) p r.length ((r.length : Int) - 1)
      = (lo.length : Int) - 1) :
    cscan r p d
      = (hi.reverse.foldl visit
          ((padInward (lo.reverse.foldl visit (0, p))).1 + (CYLINDERS - 1), CYLINDERS - 1)).1 := by
  have hlen : r.length = (lo ++ hi).length := by rw [← hq, (sortQueue_sorted_perm r).2.length_eq]
  have hk : lo.length ≤ (lo ++ hi).length := by simp
  have hn : ((lo.length : Int) - 1 + 1).toNat = lo.length := by simp
  unfold cscan
  simp only [if_neg hd]
  rw [hs, hn, hq, hlen, foldl_serve_upFrom_reverse _ _ hk, foldl_serve_range_reverse _ _ hk,
    List.drop_left, List.take_left]

/-- Outward totals in terms of the split queue `lo ++ hi` (requests below the head
position, then the others), for requests and head position inside the disk. -/
theorem outward_closed_form (r : List Int) (p : Int)
    (hr : ∀ x ∈ r, 0 ≤ x ∧ x ≤ CYLINDERS - 1) (hp : 0 ≤ p ∧ p ≤ CYLINDERS - 1) :
    ∃ lo hi : List Int, (lo ++ hi).Sorted (· ≤ ·) ∧ (lo ++ hi).Perm r ∧
      (∀ x ∈ lo, x < p) ∧ (∀ x ∈ hi, p ≤ x) ∧
      scan r p DIRECTION_OUTWARD
        = (CYLINDERS - 1 - p) + (CYLINDERS - 1 - lo.headD (CYLINDERS - 1)) ∧
      cscan r p DIRECTION_OUTWARD
        = (CYLINDERS - 1 - p) + (CYLINDERS - 1) + lo.getLastD 0 := by
  obtain ⟨lo, hi, hq, hs, hsorted, hperm, hlo, hhi⟩ := queue_split_outward r p
  have hlos : lo.Sorted (· ≤ ·) := (List.pairwise_append.1 hsorted).1
  have hhis : hi.Sorted (· ≤ ·) := (List.pairwise_append.1 hsorted).2.1
  have hrlo : ∀ x ∈ lo, 0 ≤ x ∧ x ≤ CYLINDERS - 1 := fun x hx =>
    hr x (hperm.subset (List.mem_append_left hi hx))
  have hrhi : ∀ x ∈ hi, 0 ≤ x ∧ x ≤ CYLINDERS - 1 := fun x hx =>
    hr x (hperm.subset (List.mem_append_right lo hx))
  have h1 := foldl_visit_ascending hi 0 p (chain_le_of_sorted p hi hhis hhi)
  have hg : hi.getLastD p ≤ CYLINDERS - 1 :=
    getLastD_prop (fun y => y ≤ CYLINDERS - 1) hi p hp.2 (fun x hx => (hrhi x hx).2)
  have h2 := padOutward_of_le (0 + (hi.getLastD p - p)) (hi.getLastD p) hg
  refine ⟨lo, hi, hsorted, hperm, hlo, hhi, ?_, ?_⟩
  · rw [scan_outward_split r lo hi p hq hs, h1, h2,
      foldl_visit_descending _ _ _
        (chain_ge_reverse_of_sorted (CYLINDERS - 1) lo hlos (fun x hx => (hrlo x hx).2)),
      getLastD_reverse]
    simp only
    ring
  · rw [cscan_outward_split r lo hi p hq hs, h1, h2,
      foldl_visit_ascending _ _ _ (chain_le_of_sorted 0 lo hlos (fun x hx => (hrlo x hx).1))]
    simp only
    ring

/-- Inward totals in terms of the split queue `lo ++ hi` (requests at or below the head
position, then the others), for requests and head position inside the disk. -/
theorem inward_closed_form (r : List Int) (p d : Int) (hd : d ≠ DIRECTION_OUTWARD)
    (hr : ∀ x ∈ r, 0 ≤ x ∧ x ≤ CYLINDERS - 1) (hp : 0 ≤ p ∧ p ≤ CYLINDERS - 1) :
    ∃ lo hi : List Int, (lo ++ hi).Sorted (· ≤ ·) ∧ (lo ++ hi).Perm r ∧
      (∀ x ∈ lo, x ≤ p) ∧ (∀ x ∈ hi, p < x) ∧
      scan r p d = p + hi.getLastD 0 ∧
      cscan r p d = p + (CYLINDERS - 1) + (CYLINDERS - 1 - hi.headD (CYLINDERS - 1)) := by
  obtain ⟨lo, hi, hq, hs, hsorted, hperm, hlo, hhi⟩ := queue_split_inward r p
  have hlos : lo.Sorted (· ≤ ·) := (List.pairwise_append.1 hsorted).1
  have hhis : hi.Sorted (· ≤ ·) := (List.pairwise_append.1 hsorted).2.1
  have hrlo : ∀ x ∈ lo, 0 ≤ x ∧ x ≤ CYLINDERS - 1 := fun x hx =>
    hr x (hperm.subset (List.mem_append_left hi hx))
  have hrhi : ∀ x ∈ hi, 0 ≤ x ∧ x ≤ CYLINDERS - 1 := fun x hx =>
    hr x (hperm.subset (List.mem_append_right lo hx))
  have h1 := foldl_visit_descending lo.reverse 0 p (chain_ge_reverse_of_sorted p lo hlos hlo)
  have hg : 0 ≤ lo.reverse.getLastD p :=
    getLastD_prop (fun y => 0 ≤ y) lo.reverse p hp.1
      (fun x hx => (hrlo x (List.mem_reverse.1 hx)).1)
  have h2 := padInward_of_nonneg (0 + (p - lo.reverse.getLastD p)) (lo.reverse.getLastD p) hg
  refine ⟨lo, hi, hsorted, hperm, hlo, hhi, ?_, ?_⟩
  · rw [scan_inward_split r lo hi p d hd hq hs, h1, h2,
      foldl_visit_ascending _ _ _ (chain_le_of_sorted 0 hi hhis (fun x hx => (hrhi x hx).1))]
    simp only
    ring
  · rw [cscan_inward_split r lo hi p d hd hq hs, h1, h2,
      foldl_visit_descending _ _ _
        (chain_ge_reverse_of_sorted (CYLINDERS - 1) hi hhis (fun x hx => (hrhi x hx).2)),
      getLastD_reverse hi]
    simp only
    ring

/-- SCAN outward when no request lies below the head position: only the boundary pad. -/
theorem scan_outward_none_below (r : List Int) (p : Int)
    (hr : ∀ x ∈ r, 0 ≤ x ∧ x ≤ CYLINDERS - 1) (hp : 0 ≤ p ∧ p ≤ CYLINDERS - 1)
    (hnone : ∀ x ∈ r, p ≤ x) :
    scan r p DIRECTION_OUTWARD = CYLINDERS - 1 - p := by
  obtain ⟨lo, hi, -, hperm, hlo, -, hscan, -⟩ := outward_closed_form r p hr hp
  have hnil : lo = [] := by
    cases lo with
    | nil => rfl
    | cons a t =>
      have h1 := hlo a (List.mem_cons_self a t)
      have h2 := hnone a (hperm.subset (by simp))
      omega
  rw [hscan, hnil]
  simp

/-- SCAN outward when some request lies below the head position: boundary pad, then
back down to the smallest request `m`. -/
theorem scan_outward_some_below (r : List Int) (p m : Int)
    (hr : ∀ x ∈ r, 0 ≤ x ∧ x ≤ CYLINDERS - 1) (hp : 0 ≤ p ∧ p ≤ CYLINDERS - 1)
    (hm : m ∈ r) (hmp : m < p) (hmin : ∀ x ∈ r, m ≤ x) :
    scan r p DIRECTION_OUTWARD = (CYLINDERS - 1 - p) + (CYLINDERS - 1 - m) := by
  obtain ⟨lo, hi, hsorted, hperm, hlo, hhi, hscan, -⟩ := outward_closed_form r p hr hp
  have hmlo : m ∈ lo := by
    rcases List.mem_append.1 (hperm.symm.subset hm) with h | h
    · exact h
    · have := hhi m h
      omega
  rw [hscan, headD_eq_of_least lo _ m (List.pairwise_append.1 hsorted).1 hmlo
    (fun x hx => hmin x (hperm.subset (List.mem_append_left hi hx)))]

/-- C-SCAN outward when no request lies below the head position. -/
theorem cscan_outward_none_below (r : List Int) (p : Int)
    (hr : ∀ x ∈ r, 0 ≤ x ∧ x ≤ CYLINDERS - 1) (hp : 0 ≤ p ∧ p ≤ CYLINDERS - 1)
    (hnone : ∀ x ∈ r, p ≤ x) :
    cscan r p DIRECTION_OUTWARD = (CYLINDERS - 1 - p) + (CYLINDERS - 1) := by
  obtain ⟨lo, hi, -, hperm, hlo, -, -, hcscan⟩ := outward_closed_form r p hr hp
  have hnil : lo = [] := by
    cases lo with
    | nil => rfl
    | cons a t =>
      have h1 := hlo a (List.mem_cons_self a t)
      have h2 := hnone a (hperm.subset (by simp))
      omega
  rw [hcscan, hnil]
  simp

/-- C-SCAN outward when some request lies below the head position: `w` is the largest
such request. -/
theorem cscan_outward_some_below (r : List Int) (p w : Int)
    (hr : ∀ x ∈ r, 0 ≤ x ∧ x ≤ CYLINDERS - 1) (hp : 0 ≤ p ∧ p ≤ CYLINDERS - 1)
    (hw : w ∈ r) (hwp : w < p) (hmax : ∀ x ∈ r, x < p → x ≤ w) :
    cscan r p DIRECTION_OUTWARD = (CYLINDERS - 1 - p) + (CYLINDERS - 1) + w := by
  obtain ⟨lo, hi, hsorted, hperm, hlo, hhi, -, hcscan⟩ := outward_closed_form r p hr hp
  have hwlo : w ∈ lo := by
    rcases List.mem_append.1 (hperm.symm.subset hw) with h | h
    · exact h
    · have := hhi w h
      omega
  rw [hcscan, getLastD_eq_of_greatest lo _ w (List.pairwise_append.1 hsorted).1 hwlo
    (fun x hx => hmax x (hperm.subset (List.mem_append_left hi hx)) (hlo x hx))]

/-- SCAN inward when no request lies above the head position: only the boundary pad. -/
theorem scan_inward_none_above (r : List Int) (p d : Int) (hd : d ≠ DIRECTION_OUTWARD)
    (hr : ∀ x ∈ r, 0 ≤ x ∧ x ≤ CYLINDERS - 1) (hp : 0 ≤ p ∧ p ≤ CYLINDERS - 1)
    (hnone : ∀ x ∈ r, x ≤ p) :
    scan r p d = p := by
  obtain ⟨lo, hi, -, hperm, -, hhi, hscan, -⟩ := inward_closed_form r p d hd hr hp
  have hnil : hi = [] := by
    cases hi with
    | nil => rfl
    | cons a t =>
      have h1 := hhi a (List.mem_cons_self a t)
      have h2 := hnone a (hperm.subset (by simp))
      omega
  rw [hscan, hnil]
  simp

/-- SCAN inward when some request lies above the head position: boundary pad, then
back up to the largest request `m`. -/
theorem scan_inward_some_above (r : List Int) (p d m : Int) (hd : d ≠ DIRECTION_OUTWARD)
    (hr : ∀ x ∈ r, 0 ≤ x ∧ x ≤ CYLINDERS - 1) (hp : 0 ≤ p ∧ p ≤ CYLINDERS - 1)
    (hm : m ∈ r) (hmp : p < m) (hmax : ∀ x ∈ r, x ≤ m) :
    scan r p d = p + m := by
  obtain ⟨lo, hi, hsorted, hperm, hlo, hhi, hscan, -⟩ := inward_closed_form r p d hd hr hp
  have hmhi : m ∈ hi := by
    rcases List.mem_append.1 (hperm.symm.subset hm) with h | h
    · have := hlo m h
      omega
    · exact h
  rw [hscan, getLastD_eq_of_greatest hi _ m (List.pairwise_append.1 hsorted).2.1 hmhi
    (fun x hx => hmax x (hperm.subset (List.mem_append_right lo hx)))]

/-- C-SCAN inward when no request lies above the head position. -/
theorem cscan_inward_none_above (r : List Int) (p d : Int) (hd : d ≠ DIRECTION_OUTWARD)
    (hr : ∀ x ∈ r, 0 ≤ x ∧ x ≤ CYLINDERS - 1) (hp : 0 ≤ p ∧ p ≤ CYLINDERS - 1)
    (hnone : ∀ x ∈ r, x ≤ p) :
    cscan r p d = p + (CYLINDERS - 1) := by
  obtain ⟨lo, hi, -, hperm, -, hhi, -, hcscan⟩ := inward_closed_form r p d hd hr hp
  have hnil : hi = [] := by
    cases hi with
    | nil => rfl
    | cons a t =>
      have h1 := hhi a (List.mem_cons_self a t)
      have h2 := hnone a (hperm.subset (by simp))
      omega
  rw [hcscan, hnil]
  simp

/-- C-SCAN inward when some request lies above the head position: `v` is the smallest
such request. -/
theorem cscan_inward_some_above (r : List Int) (p d v : Int) (hd : d ≠ DIRECTION_OUTWARD)
    (hr : ∀ x ∈ r, 0 ≤ x ∧ x ≤ CYLINDERS - 1) (hp : 0 ≤ p ∧ p ≤ CYLINDERS - 1)
    (hv : v ∈ r) (hvp : p < v) (hmin : ∀ x ∈ r, p < x → v ≤ x) :
    cscan r p d = p + (CYLINDERS - 1) + (CYLINDERS - 1 - v) := by
  obtain ⟨lo, hi, hsorted, hperm, hlo, hhi, -, hcscan⟩ := inward_closed_form r p d hd hr hp
  have hvhi : v ∈ hi := by
    rcases List.mem_append.1 (hperm.symm.subset hv) with h | h
    · have := hlo v h
      omega
    · exact h
  rw [hcscan, headD_eq_of_least hi _ v (List.pairwise_append.1 hsorted).2.1 hvhi
    (fun x hx => hmin x (hperm.subset (List.mem_append_right lo hx)) (hhi x hx))]

/-! ## FCFS -/

theorem foldl_serve_prefix (r : List Int) (p : Int) (n : Nat) :
    (List.range n).foldl (serve r) (0, p)
      = (∑ i in Finset.range n, |r.getD i 0 - (if i = 0 then p else r.getD (i - 1) 0)|,
          if n = 0 then p else r.getD (n - 1) 0) := by
  induction n with
  | zero => simp
  | succ n ih =>
    rw [List.range_succ, List.foldl_append, ih, Finset.sum_range_succ]
    simp [serve, Int.natCast_natAbs]

/-- With exact integer arithmetic the loop of `fcfs` adds up the absolute differences
`|r[i] - prev_i|` in arrival order. -/
theorem fcfs_exact_sum (r : List Int) (p : Int) :
    fcfs r p
      = ∑ i in Finset.range r.length,
          |r.getD i 0 - (if i = 0 then p else r.getD (i - 1) 0)| := by
  rw [fcfs, foldl_serve_prefix]

/-! ## Lists of one request -/

theorem fcfs_single (x p : Int) : fcfs [x] p = |x - p| := by
  rw [fcfs, foldl_serve_prefix]
  simp

theorem scan_single_outward (x p : Int) (hx : 0 ≤ x ∧ x ≤ CYLINDERS - 1)
    (hp : 0 ≤ p ∧ p ≤ CYLINDERS - 1) :
    scan [x] p DIRECTION_OUTWARD
      = if x < p then (CYLINDERS - 1 - p) + (CYLINDERS - 1 - x) else CYLINDERS - 1 - p := by
  have hr : ∀ y ∈ [x], 0 ≤ y ∧ y ≤ CYLINDERS - 1 := by simpa using hx
  split
  · rename_i h
    exact scan_outward_some_below [x] p x hr hp (by simp) h (by simp)
  · rename_i h
    exact scan_outward_none_below [x] p hr hp (by simpa using h)

theorem cscan_single_outward (x p : Int) (hx : 0 ≤ x ∧ x ≤ CYLINDERS - 1)
    (hp : 0 ≤ p ∧ p ≤ CYLINDERS - 1) :
    cscan [x] p DIRECTION_OUTWARD
      = if x < p then (CYLINDERS - 1 - p) + (CYLINDERS - 1) + x
        else (CYLINDERS - 1 - p) + (CYLINDERS - 1) := by
  have hr : ∀ y ∈ [x], 0 ≤ y ∧ y ≤ CYLINDERS - 1 := by simpa using hx
  split
  · rename_i h
    exact cscan_outward_some_below [x] p x hr hp (by simp) h (by simp)
  · rename_i h
    exact cscan_outward_none_below [x] p hr hp (by simpa using h)

theorem scan_single_inward (x p d : Int) (hd : d ≠ DIRECTION_OUTWARD)
    (hx : 0 ≤ x ∧ x ≤ CYLINDERS - 1) (hp : 0 ≤ p ∧ p ≤ CYLINDERS - 1) :
    scan [x] p d = if p < x then p + x else p := by
  have hr : ∀ y ∈ [x], 0 ≤ y ∧ y ≤ CYLINDERS - 1 := by simpa using hx
  split
  · rename_i h
    exact scan_inward_some_above [x] p d x hd hr hp (by simp) h (by simp)
  · rename_i h
    exact scan_inward_none_above [x] p d hd hr hp (by simpa using h)

theorem cscan_single_inward (x p d : Int) (hd : d ≠ DIRECTION_OUTWARD)
    (hx : 0 ≤ x ∧ x ≤ CYLINDERS - 1) (hp : 0 ≤ p ∧ p ≤ CYLINDERS - 1) :
    cscan [x] p d
      = if p < x then p + (CYLINDERS - 1) + (CYLINDERS - 1 - x) else p + (CYLINDERS - 1) := by
  have hr : ∀ y ∈ [x], 0 ≤ y ∧ y ≤ CYLINDERS - 1 := by simpa using hx
  split
  · rename_i h
    exact cscan_inward_some_above [x] p d x hd hr hp (by simp) h (by simp)
  · rename_i h
    exact cscan_inward_none_above [x] p d hd hr hp (by simpa using h)

theorem inward_ne_outward : DIRECTION_INWARD ≠ DIRECTION_OUTWARD := by decide

/-! ## SCAN outward with requests on both sides of the head -/

/-- C2 (as stated, refuted): on the reference scenario the requests lie in range with
minimum 986 and maximum 3904 on either side of the head position 2546, and `scan`
outward returns 6466, not `(4999 - 2546) + (3904 - 986) = 5371`. -/
theorem scan_outward_span_counterexample :
    [2150, 3904, 986, 2774, 1431].min? = some (986 : Int) ∧
    [2150, 3904, 986, 2774, 1431].max? = some (3904 : Int) ∧
    (CYLINDERS - 1 - 2546) + (3904 - 986) = 5371 ∧
    scan [2150, 3904, 986, 2774, 1431] 2546 DIRECTION_OUTWARD = 6466 ∧
    scan [2150, 3904, 986, 2774, 1431] 2546 DIRECTION_OUTWARD
      ≠ (CYLINDERS - 1 - 2546) + (3904 - 986) := by
  decide

/-- C2 (amended): for requests and head position inside the disk, with the smallest
request `mn` below the head position `p` and the largest request `mx` above it,
`scan` outward returns `(N-1 - p) + (N-1 - mn)`: the head reverses at the disk boundary
`N-1`, not at the largest request. -/
theorem scan_outward_both_sides (r : List Int) (p mn mx : Int)
    (hr : ∀ x ∈ r, 0 ≤ x ∧ x ≤ CYLINDERS - 1) (hp : 0 ≤ p ∧ p ≤ CYLINDERS - 1)
    (hmn : mn ∈ r) (hmin : ∀ x ∈ r, mn ≤ x) (_hmx : mx ∈ r) (_hmax : ∀ x ∈ r, x ≤ mx)
    (hlo : mn < p) (_hhi : p < mx) :
    scan r p DIRECTION_OUTWARD = (CYLINDERS - 1 - p) + (CYLINDERS - 1 - mn) :=
  scan_outward_some_below r p mn hr hp hmn hlo hmin

/-- C2 (amended) on the reference scenario: the total is `2453 + 4013 = 6466`. -/
theorem scan_outward_both_sides_witness :
    scan [2150, 3904, 986, 2774, 1431] 2546 DIRECTION_OUTWARD
      = (CYLINDERS - 1 - 2546) + (CYLINDERS - 1 - 986) :=
  scan_outward_both_sides [2150, 3904, 986, 2774, 1431] 2546 986 3904
    (by decide) (by decide) (by decide) (by decide) (by decide) (by decide)
    (by decide) (by decide)

/-! ## C-SCAN on the reference scenario -/

/-- C3 (as stated, refuted): on the reference scenario `cscan` outward returns 9602,
not `(4999 - 2546) + 4999 + (986 - 0) = 8438`. -/
theorem cscan_reference_counterexample :
    (CYLINDERS - 1 - 2546) + (CYLINDERS - 1) + (986 - 0) = 8438 ∧
    cscan [2150, 3904, 986, 2774, 1431] 2546 DIRECTION_OUTWARD = 9602 ∧
    cscan [2150, 3904, 986, 2774, 1431] 2546 DIRECTION_OUTWARD ≠ 8438 := by
  decide

/-- C3 (amended): on the reference scenario `cscan` outward returns
`(4999 - 2546) + 4999 + (2150 - 0) = 9602`: the distance to the top boundary, the full
wraparound, and the distance from cylinder 0 to request 2150, the last request served
on the wrapped side (986, 1431, 2150 in ascending order). -/
theorem cscan_reference_total :
    cscan [2150, 3904, 986, 2774, 1431] 2546 DIRECTION_OUTWARD
      = (CYLINDERS - 1 - 2546) + (CYLINDERS - 1) + (2150 - 0) ∧
    (CYLINDERS - 1 - 2546) + (CYLINDERS - 1) + (2150 - 0) = 9602 := by
  decide

/-! ## The empty request list -/

/-- C4 (as stated, refuted): with no requests and the head at cylinder 2546, `scan` and
`cscan` do not return 0 in either direction. -/
theorem empty_requests_counterexample :
    (0 ≤ (2546 : Int) ∧ (2546 : Int) ≤ CYLINDERS - 1) ∧
    scan [] 2546 DIRECTION_OUTWARD = 2453 ∧ scan [] 2546 DIRECTION_INWARD = 2546 ∧
    cscan [] 2546 DIRECTION_OUTWARD = 7452 ∧ cscan [] 2546 DIRECTION_INWARD = 7545 ∧
    scan [] 2546 DIRECTION_OUTWARD ≠ 0 ∧ scan [] 2546 DIRECTION_INWARD ≠ 0 ∧
    cscan [] 2546 DIRECTION_OUTWARD ≠ 0 ∧ cscan [] 2546 DIRECTION_INWARD ≠ 0 := by
  decide

/-- C4 (amended): for the empty request list and a head position `p` inside the disk,
`fcfs` returns 0, `scan` returns the boundary pad alone (`N-1 - p` outward, `p` inward)
and `cscan` returns the pad plus the wraparound (`(N-1 - p) + (N-1)` outward,
`p + (N-1)` inward). -/
theorem empty_requests_totals (p : Int) (hp : 0 ≤ p ∧ p ≤ CYLINDERS - 1) :
    fcfs [] p = 0 ∧
    scan [] p DIRECTION_OUTWARD = CYLINDERS - 1 - p ∧
    scan [] p DIRECTION_INWARD = p ∧
    cscan [] p DIRECTION_OUTWARD = (CYLINDERS - 1 - p) + (CYLINDERS - 1) ∧
    cscan [] p DIRECTION_INWARD = p + (CYLINDERS - 1) :=
  ⟨rfl,
    scan_outward_none_below [] p (by simp) hp (by simp),
    scan_inward_none_above [] p _ inward_ne_outward (by simp) hp (by simp),
    cscan_outward_none_below [] p (by simp) hp (by simp),
    cscan_inward_none_above [] p _ inward_ne_outward (by simp) hp (by simp)⟩

/-- C4 (amended) with the head at the top cylinder 4999. -/
theorem empty_requests_totals_witness :
    fcfs [] 4999 = 0 ∧
    scan [] 4999 DIRECTION_OUTWARD = CYLINDERS - 1 - 4999 ∧
    scan [] 4999 DIRECTION_INWARD = 4999 ∧
    cscan [] 4999 DIRECTION_OUTWARD = (CYLINDERS - 1 - 4999) + (CYLINDERS - 1) ∧
    cscan [] 4999 DIRECTION_INWARD = 4999 + (CYLINDERS - 1) :=
  empty_requests_totals 4999 (by decide)

/-! ## A single request -/

/-- C5 (as stated, refuted): for the single request 100 and the head at cylinder 50,
`fcfs` returns 50 while `scan` and `cscan` return other totals in both directions. -/
theorem single_request_counterexample :
    fcfs [100] 50 = 50 ∧
    scan [100] 50 DIRECTION_OUTWARD = 4949 ∧ scan [100] 50 DIRECTION_INWARD = 150 ∧
    cscan [100] 50 DIRECTION_OUTWARD = 9948 ∧ cscan [100] 50 DIRECTION_INWARD = 9948 ∧
    scan [100] 50 DIRECTION_OUTWARD ≠ fcfs [100] 50 ∧
    scan [100] 50 DIRECTION_INWARD ≠ fcfs [100] 50 ∧
    cscan [100] 50 DIRECTION_OUTWARD ≠ fcfs [100] 50 ∧
    cscan [100] 50 DIRECTION_INWARD ≠ fcfs [100] 50 := by
  decide

/-- C5 (amended): for a single request `x` and a head position `p`, both inside the
disk, `scan` and `cscan` agree with `fcfs` only in boundary configurations: `scan`
outward exactly when `x = N-1` or `p = N-1`, `scan` inward exactly when `x = 0` or
`p = 0`, `cscan` outward exactly when `x = 0` and `p = N-1`, `cscan` inward exactly
when `x = N-1` and `p = 0`. -/
theorem single_request_agreement (x p : Int) (hx : 0 ≤ x ∧ x ≤ CYLINDERS - 1)
    (hp : 0 ≤ p ∧ p ≤ CYLINDERS - 1) :
    (scan [x] p DIRECTION_OUTWARD = fcfs [x] p ↔ x = CYLINDERS - 1 ∨ p = CYLINDERS - 1) ∧
    (scan [x] p DIRECTION_INWARD = fcfs [x] p ↔ x = 0 ∨ p = 0) ∧
    (cscan [x] p DIRECTION_OUTWARD = fcfs [x] p ↔ x = 0 ∧ p = CYLINDERS - 1) ∧
    (cscan [x] p DIRECTION_INWARD = fcfs [x] p ↔ x = CYLINDERS - 1 ∧ p = 0) := by
  rw [scan_single_outward x p hx hp, scan_single_inward x p _ inward_ne_outward hx hp,
    cscan_single_outward x p hx hp, cscan_single_inward x p _ inward_ne_outward hx hp,
    fcfs_single]
  simp only [CYLINDERS] at *
  rcases abs_cases (x - p) with ⟨ha, hb⟩ | ⟨ha, hb⟩
  · rw [ha]
    refine ⟨?_, ?_, ?_, ?_⟩ <;> split_ifs <;> constructor <;> intro h <;> omega
  · rw [ha]
    refine ⟨?_, ?_, ?_, ?_⟩ <;> split_ifs <;> constructor <;> intro h <;> omega

/-- C5 (amended) for the request 4999 with the head at cylinder 10. -/
theorem single_request_agreement_witness :
    (scan [4999] 10 DIRECTION_OUTWARD = fcfs [4999] 10
      ↔ (4999 : Int) = CYLINDERS - 1 ∨ (10 : Int) = CYLINDERS - 1) ∧
    (scan [4999] 10 DIRECTION_INWARD = fcfs [4999] 10 ↔ (4999 : Int) = 0 ∨ (10 : Int) = 0) ∧
    (cscan [4999] 10 DIRECTION_OUTWARD = fcfs [4999] 10
      ↔ (4999 : Int) = 0 ∧ (10 : Int) = CYLINDERS - 1) ∧
    (cscan [4999] 10 DIRECTION_INWARD = fcfs [4999] 10
      ↔ (4999 : Int) = CYLINDERS - 1 ∧ (10 : Int) = 0) :=
  single_request_agreement 4999 10 (by decide) (by decide)

/-! ## A single request at the head position -/

/-- C6 (as stated, refuted): with the single request 2546 and the head already at
cylinder 2546, `scan` and `cscan` do not return 0 in either direction. -/
theorem request_at_head_counterexample :
    scan [2546] 2546 DIRECTION_OUTWARD = 2453 ∧ scan [2546] 2546 DIRECTION_INWARD = 2546 ∧
    cscan [2546] 2546 DIRECTION_OUTWARD = 7452 ∧ cscan [2546] 2546 DIRECTION_INWARD = 7545 ∧
    scan [2546] 2546 DIRECTION_OUTWARD ≠ 0 ∧ scan [2546] 2546 DIRECTION_INWARD ≠ 0 ∧
    cscan [2546] 2546 DIRECTION_OUTWARD ≠ 0 ∧ cscan [2546] 2546 DIRECTION_INWARD ≠ 0 := by
  decide

/-- C6 (amended): when the only request equals the head position `p` (inside the disk),
`fcfs` returns 0, `scan` returns the boundary pad (`N-1 - p` outward, `p` inward) and
`cscan` returns the pad plus the wraparound (`(N-1 - p) + (N-1)` outward, `p + (N-1)`
inward). -/
theorem request_at_head_totals (p : Int) (hp : 0 ≤ p ∧ p ≤ CYLINDERS - 1) :
    fcfs [p] p = 0 ∧
    scan [p] p DIRECTION_OUTWARD = CYLINDERS - 1 - p ∧
    scan [p] p DIRECTION_INWARD = p ∧
    cscan [p] p DIRECTION_OUTWARD = (CYLINDERS - 1 - p) + (CYLINDERS - 1) ∧
    cscan [p] p DIRECTION_INWARD = p + (CYLINDERS - 1) := by
  rw [scan_single_outward p p hp hp, scan_single_inward p p _ inward_ne_outward hp hp,
    cscan_single_outward p p hp hp, cscan_single_inward p p _ inward_ne_outward hp hp,
    fcfs_single]
  simp

/-- C6 (amended) with request and head both at cylinder 0. -/
theorem request_at_head_totals_witness :
    fcfs [0] 0 = 0 ∧
    scan [0] 0 DIRECTION_OUTWARD = CYLINDERS - 1 - 0 ∧
    scan [0] 0 DIRECTION_INWARD = 0 ∧
    cscan [0] 0 DIRECTION_OUTWARD = (CYLINDERS - 1 - 0) + (CYLINDERS - 1) ∧
    cscan [0] 0 DIRECTION_INWARD = 0 + (CYLINDERS - 1) :=
  request_at_head_totals 0 (by decide)

/-! ## SCAN outward with every request below the head -/

/-- C7: for a non-empty request list inside the disk whose requests all lie strictly
below the head position `p` (also inside the disk), `scan` outward returns
`(N-1 - p) + (N-1 - m)` with `m` the smallest request: one pad to the top boundary and
a single descending pass. -/
theorem scan_outward_all_below (r : List Int) (p m : Int)
    (hr : ∀ x ∈ r, 0 ≤ x ∧ x ≤ CYLINDERS - 1) (hp : 0 ≤ p ∧ p ≤ CYLINDERS - 1)
    (_hne : r ≠ []) (hm : m ∈ r) (hmin : ∀ x ∈ r, m ≤ x) (hbelow : ∀ x ∈ r, x < p) :
    scan r p DIRECTION_OUTWARD = (CYLINDERS - 1 - p) + (CYLINDERS - 1 - m) :=
  scan_outward_some_below r p m hr hp hm (hbelow m hm) hmin

/-- C7 for the requests 100, 300, 200 with the head at cylinder 1000. -/
theorem scan_outward_all_below_witness :
    scan [100, 300, 200] 1000 DIRECTION_OUTWARD = (CYLINDERS - 1 - 1000) + (CYLINDERS - 1 - 100) :=
  scan_outward_all_below [100, 300, 200] 1000 100 (by decide) (by decide) (by decide)
    (by decide) (by decide) (by decide)

/-! ## C-SCAN outward -/

/-- C8: for requests and head position `p` inside the disk, `cscan` outward returns
`(N-1 - p) + (N-1) + w`, where `w` is the largest request strictly below `p`, and
`w = 0` when no request lies below `p`: the wraparound `N-1` is charged in both cases. -/
theorem cscan_outward_total (r : List Int) (p w : Int)
    (hr : ∀ x ∈ r, 0 ≤ x ∧ x ≤ CYLINDERS - 1) (hp : 0 ≤ p ∧ p ≤ CYLINDERS - 1)
    (hw : (w ∈ r ∧ w < p ∧ ∀ x ∈ r, x < p → x ≤ w) ∨ ((∀ x ∈ r, p ≤ x) ∧ w = 0)) :
    cscan r p DIRECTION_OUTWARD = (CYLINDERS - 1 - p) + (CYLINDERS - 1) + w := by
  rcases hw with ⟨h1, h2, h3⟩ | ⟨h1, rfl⟩
  · exact cscan_outward_some_below r p w hr hp h1 h2 h3
  · rw [cscan_outward_none_below r p hr hp h1, add_zero]

/-- C8 with a request below the head (largest one 20) and with none below it. -/
theorem cscan_outward_total_witness :
    cscan [10, 4000, 20] 100 DIRECTION_OUTWARD = (CYLINDERS - 1 - 100) + (CYLINDERS - 1) + 20 ∧
    cscan [4000, 100] 100 DIRECTION_OUTWARD = (CYLINDERS - 1 - 100) + (CYLINDERS - 1) + 0 :=
  ⟨cscan_outward_total [10, 4000, 20] 100 20 (by decide) (by decide) (Or.inl (by decide)),
    cscan_outward_total [4000, 100] 100 0 (by decide) (by decide) (Or.inr (by decide))⟩

/-! ## C-SCAN minus SCAN, outward -/

/-- C9 (as stated, refuted): on the reference scenario the smallest request 986 lies
below the head, so the return distance of `scan` is `D = 4999 - 986 = 4013`; the
difference `cscan - scan` is `9602 - 6466 = 3136`, not `(N-1) - D = 986`. -/
theorem cscan_scan_delta_counterexample :
    scan [2150, 3904, 986, 2774, 1431] 2546 DIRECTION_OUTWARD
      = (CYLINDERS - 1 - 2546) + (CYLINDERS - 1 - 986) ∧
    (CYLINDERS - 1) - (CYLINDERS - 1 - 986) = 986 ∧
    cscan [2150, 3904, 986, 2774, 1431] 2546 DIRECTION_OUTWARD
      - scan [2150, 3904, 986, 2774, 1431] 2546 DIRECTION_OUTWARD = 3136 ∧
    cscan [2150, 3904, 986, 2774, 1431] 2546 DIRECTION_OUTWARD
      - scan [2150, 3904, 986, 2774, 1431] 2546 DIRECTION_OUTWARD
      ≠ (CYLINDERS - 1) - (CYLINDERS - 1 - 986) := by
  decide

/-- C9 (amended): for requests and head position `p` inside the disk, let `D` be the
return distance of `scan` outward (`D = N-1 - mn` with `mn` the smallest request when
some request lies below `p`, `D = 0` otherwise) and `w` the largest request strictly
below `p` (`w = 0` when there is none). Then `scan` outward is `(N-1 - p) + D` and
`cscan - scan`, outward, equals `(N-1) - D + w`. -/
theorem cscan_scan_delta (r : List Int) (p mn D w : Int)
    (hr : ∀ x ∈ r, 0 ≤ x ∧ x ≤ CYLINDERS - 1) (hp : 0 ≤ p ∧ p ≤ CYLINDERS - 1)
    (h : ((∀ x ∈ r, p ≤ x) ∧ D = 0 ∧ w = 0) ∨
      (mn ∈ r ∧ mn < p ∧ (∀ x ∈ r, mn ≤ x) ∧ D = CYLINDERS - 1 - mn ∧
        w ∈ r ∧ w < p ∧ ∀ x ∈ r, x < p → x ≤ w)) :
    scan r p DIRECTION_OUTWARD = (CYLINDERS - 1 - p) + D ∧
    cscan r p DIRECTION_OUTWARD - scan r p DIRECTION_OUTWARD = (CYLINDERS - 1) - D + w := by
  rcases h with ⟨h1, rfl, rfl⟩ | ⟨h1, h2, h3, rfl, h5, h6, h7⟩
  · rw [scan_outward_none_below r p hr hp h1, cscan_outward_none_below r p hr hp h1]
    constructor <;> ring
  · rw [scan_outward_some_below r p mn hr hp h1 h2 h3,
      cscan_outward_some_below r p w hr hp h5 h6 h7]
    constructor <;> ring

/-- C9 (amended) on the reference scenario: `D = 4013`, `w = 2150`, difference 3136. -/
theorem cscan_scan_delta_witness :
    scan [2150, 3904, 986, 2774, 1431] 2546 DIRECTION_OUTWARD
      = (CYLINDERS - 1 - 2546) + (CYLINDERS - 1 - 986) ∧
    cscan [2150, 3904, 986, 2774, 1431] 2546 DIRECTION_OUTWARD
      - scan [2150, 3904, 986, 2774, 1431] 2546 DIRECTION_OUTWARD
      = (CYLINDERS - 1) - (CYLINDERS - 1 - 986) + 2150 :=
  cscan_scan_delta [2150, 3904, 986, 2774, 1431] 2546 986 (CYLINDERS - 1 - 986) 2150
    (by decide) (by decide) (Or.inr (by decide))

/-! ## SCAN inward with requests on both sides of the head -/

/-- C10 (as stated, refuted): on the reference scenario, inward, `scan` returns 6450,
not `2546 + (3904 - 986) = 5464`. -/
theorem scan_inward_span_counterexample :
    [2150, 3904, 986, 2774, 1431].min? = some (986 : Int) ∧
    [2150, 3904, 986, 2774, 1431].max? = some (3904 : Int) ∧
    (2546 : Int) + (3904 - 986) = 5464 ∧
    scan [2150, 3904, 986, 2774, 1431] 2546 DIRECTION_INWARD = 6450 ∧
    scan [2150, 3904, 986, 2774, 1431] 2546 DIRECTION_INWARD ≠ 2546 + (3904 - 986) := by
  decide

/-- C10 (amended): for requests and head position inside the disk, with the smallest
request `mn` below the head position `p` and the largest request `mx` above it,
`scan` inward returns `p + mx`: the head reverses at cylinder 0, not at the smallest
request, and then climbs to the largest request. -/
theorem scan_inward_both_sides (r : List Int) (p mn mx : Int)
    (hr : ∀ x ∈ r, 0 ≤ x ∧ x ≤ CYLINDERS - 1) (hp : 0 ≤ p ∧ p ≤ CYLINDERS - 1)
    (_hmn : mn ∈ r) (_hmin : ∀ x ∈ r, mn ≤ x) (hmx : mx ∈ r) (hmax : ∀ x ∈ r, x ≤ mx)
    (_hlo : mn < p) (hhi : p < mx) :
    scan r p DIRECTION_INWARD = p + mx :=
  scan_inward_some_above r p _ mx inward_ne_outward hr hp hmx hhi hmax

/-- C10 (amended) on the reference scenario: the total is `2546 + 3904 = 6450`. -/
theorem scan_inward_both_sides_witness :
    scan [2150, 3904, 986, 2774, 1431] 2546 DIRECTION_INWARD = 2546 + 3904 :=
  scan_inward_both_sides [2150, 3904, 986, 2774, 1431] 2546 986 3904
    (by decide) (by decide) (by decide) (by decide) (by decide) (by decide)
    (by decide) (by decide)

/-! ## Arrival order -/

theorem scan_eq_sweep (r : List Int) (p d : Int) :
    scan r p d = scanSweep (sortQueue r.length r) r.length p d := rfl

theorem cscan_eq_sweep (r : List Int) (p d : Int) :
    cscan r p d = cscanSweep (sortQueue r.length r) r.length p d := rfl

/-- Two arrangements of the same requests are sorted into the same queue. -/
theorem sortQueue_perm (r r2 : List Int) (h : r2.Perm r) :
    sortQueue r2.length r2 = sortQueue r.length r :=
  List.eq_of_perm_of_sorted
    (((sortQueue_sorted_perm r2).2.trans h).trans (sortQueue_sorted_perm r).2.symm)
    (sortQueue_sorted_perm r2).1 (sortQueue_sorted_perm r).1

/-- C11: arrival order is irrelevant to SCAN and C-SCAN: for every rearrangement `r2` of
the request list `r`, every head position and every direction, `scan` and `cscan`
return the same totals on `r2` as on `r`. -/
theorem scan_cscan_arrival_order (r r2 : List Int) (p d : Int) (h : r2.Perm r) :
    scan r2 p d = scan r p d ∧ cscan r2 p d = cscan r p d := by
  rw [scan_eq_sweep, scan_eq_sweep, cscan_eq_sweep, cscan_eq_sweep, sortQueue_perm r r2 h,
    h.length_eq]
  exact ⟨rfl, rfl⟩

/-- C11 on the reference requests in reversed arrival order, inward. -/
theorem scan_cscan_arrival_order_witness :
    scan [1431, 2774, 986, 3904, 2150] 2546 DIRECTION_INWARD
      = scan [2150, 3904, 986, 2774, 1431] 2546 DIRECTION_INWARD ∧
    cscan [1431, 2774, 986, 3904, 2150] 2546 DIRECTION_INWARD
      = cscan [2150, 3904, 986, 2774, 1431] 2546 DIRECTION_INWARD :=
  scan_cscan_arrival_order [2150, 3904, 986, 2774, 1431] [1431, 2774, 986, 3904, 2150]
    2546 DIRECTION_INWARD (by decide)

/-! ## The sort and the split index -/

/-- C14: for every request list (of any length `count ≥ 0`) the nested sort loops of
`scan` and `cscan` leave the queue an ascending (non-decreasing) permutation of the
requests. -/
theorem sort_loops_ascending_permutation (r : List Int) :
    (sortQueue r.length r).Sorted (· ≤ ·) ∧ (sortQueue r.length r).Perm r ∧
    (sortQueue r.length r).length = r.length :=
  ⟨(sortQueue_sorted_perm r).1, (sortQueue_sorted_perm r).2,
    (sortQueue_sorted_perm r).2.length_eq⟩

theorem getD_append_mem_left (lo hi : List Int) (i : Nat) (h : i < lo.length) :
    (lo ++ hi).getD i 0 ∈ lo := by
  rw [List.getD_eq_getElem _ _ (by simp; omega), List.getElem_append_left h]
  exact List.getElem_mem h

theorem getD_append_mem_right (lo hi : List Int) (i : Nat) (h1 : lo.length ≤ i)
    (h2 : i < (lo ++ hi).length) : (lo ++ hi).getD i 0 ∈ hi := by
  rw [List.getD_eq_getElem _ _ h2, List.getElem_append_right h1]
  exact List.getElem_mem _

/-- C15: on the sorted queue `q` of `count` requests, the outward split index `s` is the
smallest index with `q[s] ≥ p`, or `count` if there is none, and the inward split index
`t` is the largest index with `q[t] ≤ p`, or `-1` if there is none; the first pass
(indices `s..count-1` outward, `t..0` inward) holds every request equal to `p`. -/
theorem split_index_spec (r : List Int) (p : Int) :
    ∃ (q : List Int) (s : Nat) (t : Int),
      sortQueue r.length r = q ∧
      startOutward q r.length p r.length 0 = s ∧
      startInward q p r.length ((r.length : Int) - 1) = t ∧
      s ≤ r.length ∧ (∀ i, i < s → q.getD i 0 < p) ∧
      (∀ i, s ≤ i → i < r.length → p ≤ q.getD i 0) ∧
      -1 ≤ t ∧ t < r.length ∧ (∀ i : Nat, (i : Int) ≤ t → q.getD i 0 ≤ p) ∧
      (∀ i : Nat, t < i → i < r.length → p < q.getD i 0) ∧
      (∀ i, i < r.length → q.getD i 0 = p → s ≤ i ∧ (i : Int) ≤ t) := by
  obtain ⟨lo, hi, hq, hs, -, hperm, hlo, hhi⟩ := queue_split_outward r p
  obtain ⟨lo2, hi2, hq2, ht, -, hperm2, hlo2, hhi2⟩ := queue_split_inward r p
  have hlen : (lo ++ hi).length = r.length := hperm.length_eq
  have hlen2 : (lo2 ++ hi2).length = r.length := hperm2.length_eq
  have hll : lo.length ≤ r.length := by
    rw [← hlen, List.length_append]
    omega
  have hll2 : lo2.length ≤ r.length := by
    rw [← hlen2, List.length_append]
    omega
  have h1 : ∀ i, i < lo.length → (sortQueue r.length r).getD i 0 < p := fun i ha =>
    hq ▸ hlo _ (getD_append_mem_left lo hi i ha)
  have h2 : ∀ i, lo.length ≤ i → i < r.length → p ≤ (sortQueue r.length r).getD i 0 :=
    fun i ha hb => hq ▸ hhi _ (getD_append_mem_right lo hi i ha (by omega))
  have h3 : ∀ i : Nat, (i : Int) ≤ (lo2.length : Int) - 1 →
      (sortQueue r.length r).getD i 0 ≤ p := fun i ha =>
    hq2 ▸ hlo2 _ (getD_append_mem_left lo2 hi2 i (by omega))
  have h4 : ∀ i : Nat, (lo2.length : Int) - 1 < i → i < r.length →
      p < (sortQueue r.length r).getD i 0 := fun i ha hb =>
    hq2 ▸ hhi2 _ (getD_append_mem_right lo2 hi2 i (by omega) (by omega))
  refine ⟨sortQueue r.length r, lo.length, (lo2.length : Int) - 1, rfl, hs, ht, hll, h1, h2,
    by omega, by omega, h3, h4, ?_⟩
  intro i ha hb
  constructor
  · by_contra hc
    have := h1 i (by omega)
    omega
  · by_contra hc
    have := h4 i (by omega) ha
    omega

/-! ## FCFS with a 32-bit accumulator -/

theorem wrap32_of_range (x : Int) (h : -2147483648 ≤ x ∧ x < 2147483648) : wrap32 x = x := by
  unfold wrap32
  omega

theorem getD_in_range (q : List Int) (hq : ∀ x ∈ q, 0 ≤ x ∧ x ≤ CYLINDERS - 1) (i : Nat) :
    0 ≤ q.getD i 0 ∧ q.getD i 0 ≤ CYLINDERS - 1 := by
  by_cases h : i < q.length
  · rw [List.getD_eq_getElem _ _ h]
    exact hq _ (List.getElem_mem h)
  · rw [List.getD_eq_default _ _ (by omega)]
    decide

/-- One 32-bit service step from an in-range head position to an in-range request is the
exact step followed by one reduction. -/
theorem serve32_wrap (q : List Int) (hq : ∀ x ∈ q, 0 ≤ x ∧ x ≤ CYLINDERS - 1) (t c : Int)
    (hc : 0 ≤ c ∧ c ≤ CYLINDERS - 1) (i : Nat) :
    serve32 q (wrap32 t, c) i = (wrap32 (serve q (t, c) i).1, (serve q (t, c) i).2) := by
  have hx := getD_in_range q hq i
  simp only [CYLINDERS] at hx hc
  have h1 : wrap32 (q.getD i 0 - c) = q.getD i 0 - c := wrap32_of_range _ (by omega)
  simp only [serve32, serve, h1]
  refine Prod.ext ?_ rfl
  simp only [wrap32]
  omega

theorem foldl_serve_snd_range (q : List Int) (hq : ∀ x ∈ q, 0 ≤ x ∧ x ≤ CYLINDERS - 1)
    (idx : List Nat) (st : Int × Int) (hc : 0 ≤ st.2 ∧ st.2 ≤ CYLINDERS - 1) :
    0 ≤ (idx.foldl (serve q) st).2 ∧ (idx.foldl (serve q) st).2 ≤ CYLINDERS - 1 := by
  induction idx generalizing st with
  | nil => exact hc
  | cons i rest ih => exact ih _ (getD_in_range q hq i)

theorem foldl_serve32_wrap (q : List Int) (hq : ∀ x ∈ q, 0 ≤ x ∧ x ≤ CYLINDERS - 1)
    (idx : List Nat) (t c : Int) (hc : 0 ≤ c ∧ c ≤ CYLINDERS - 1) :
    idx.foldl (serve32 q) (wrap32 t, c)
      = (wrap32 (idx.foldl (serve q) (t, c)).1, (idx.foldl (serve q) (t, c)).2) := by
  induction idx generalizing t c with
  | nil => rfl
  | cons i rest ih =>
    rw [List.foldl_cons, List.foldl_cons, serve32_wrap q hq t c hc i]
    exact ih _ _ (getD_in_range q hq i)

theorem foldl_serve_mono (q : List Int) (idx : List Nat) (st : Int × Int) :
    st.1 ≤ (idx.foldl (serve q) st).1 := by
  induction idx generalizing st with
  | nil => exact le_refl _
  | cons i rest ih =>
    refine le_trans ?_ (ih _)
    simp only [serve]
    omega

theorem foldl_serve_le (q : List Int) (hq : ∀ x ∈ q, 0 ≤ x ∧ x ≤ CYLINDERS - 1)
    (idx : List Nat) (st : Int × Int) (hc : 0 ≤ st.2 ∧ st.2 ≤ CYLINDERS - 1) :
    (idx.foldl (serve q) st).1 ≤ st.1 + (CYLINDERS - 1) * idx.length := by
  induction idx generalizing st with
  | nil => simp
  | cons i rest ih =>
    have hx := getD_in_range q hq i
    refine le_trans (ih _ hx) ?_
    simp only [serve, List.length_cons, CYLINDERS] at *
    omega

theorem fcfs32_eq_wrap (r : List Int) (p : Int) (hr : ∀ x ∈ r, 0 ≤ x ∧ x ≤ CYLINDERS - 1)
    (hp : 0 ≤ p ∧ p ≤ CYLINDERS - 1) : fcfs32 r p = wrap32 (fcfs r p) := by
  have h := foldl_serve32_wrap r hr (List.range r.length) 0 p hp
  have h0 : wrap32 0 = 0 := by decide
  rw [h0] at h
  rw [fcfs32, fcfs, h]

theorem fcfs_bounds (r : List Int) (p : Int) (hr : ∀ x ∈ r, 0 ≤ x ∧ x ≤ CYLINDERS - 1)
    (hp : 0 ≤ p ∧ p ≤ CYLINDERS - 1) :
    0 ≤ fcfs r p ∧ fcfs r p ≤ (CYLINDERS - 1) * r.length := by
  constructor
  · exact foldl_serve_mono r (List.range r.length) (0, p)
  · have := foldl_serve_le r hr (List.range r.length) (0, p) hp
    simpa [fcfs] using this

theorem zigzag_getD (n i : Nat) (h : i < n) :
    (zigzag n).getD i 0 = if i % 2 = 0 then 4999 else 0 := by
  unfold zigzag
  rw [List.getD_eq_getElem _ _ (by simpa using h)]
  simp

theorem zigzag_in_range (n : Nat) : ∀ x ∈ zigzag n, 0 ≤ x ∧ x ≤ CYLINDERS - 1 := by
  intro x hx
  simp only [zigzag, List.mem_map, List.mem_range] at hx
  obtain ⟨i, -, rfl⟩ := hx
  split <;> decide

theorem foldl_serve_zigzag (n m : Nat) (h : m ≤ n) :
    (List.range m).foldl (serve (zigzag n)) (0, 0)
      = (4999 * (m : Int), if m = 0 then 0 else (zigzag n).getD (m - 1) 0) := by
  induction m with
  | zero => simp
  | succ m ih =>
    rw [List.range_succ, List.foldl_append, ih (by omega), List.foldl_cons, List.foldl_nil]
    have hm := zigzag_getD n m (by omega)
    refine Prod.ext ?_ (by simp [serve])
    simp only [serve, hm]
    by_cases h0 : m = 0
    · subst h0
      simp
    · have hm1 := zigzag_getD n (m - 1) (by omega)
      simp only [h0, if_false, hm1]
      by_cases hpar : m % 2 = 0
      · have : ¬ (m - 1) % 2 = 0 := by omega
        simp only [hpar, this, if_true, if_false]
        omega
      · have : (m - 1) % 2 = 0 := by omega
        simp only [hpar, this, if_true, if_false]
        omega

theorem fcfs_zigzag (n : Nat) : fcfs (zigzag n) 0 = 4999 * (n : Int) := by
  have hl : (zigzag n).length = n := by simp [zigzag]
  rw [fcfs, hl, foldl_serve_zigzag n n (le_refl _)]

/-- C12 (as stated, refuted): 429583 in-range requests alternating between cylinders
4999 and 0, served from cylinder 0, move the head by `429583 * 4999 = 2147485417`
cylinders, which exceeds `2^31 - 1`: the 32-bit accumulator of `fcfs` ends negative. -/
theorem fcfs32_negative_counterexample :
    (zigzag 429583).length = 429583 ∧
    (∀ x ∈ zigzag 429583, 0 ≤ x ∧ x ≤ CYLINDERS - 1) ∧
    fcfs (zigzag 429583) 0 = 2147485417 ∧
    fcfs32 (zigzag 429583) 0 = -2147481879 ∧
    ¬ (0 ≤ fcfs32 (zigzag 429583) 0) := by
  have h1 : fcfs (zigzag 429583) 0 = 2147485417 := by
    rw [fcfs_zigzag]
    norm_num
  have h2 : fcfs32 (zigzag 429583) 0 = -2147481879 := by
    rw [fcfs32_eq_wrap _ _ (zigzag_in_range _) (by decide), h1]
    decide
  refine ⟨by simp [zigzag], zigzag_in_range _, h1, h2, ?_⟩
  rw [h2]
  decide

/-- C12 (amended): for every non-empty list of at most 429582 requests inside the disk
and every head position inside the disk, `fcfs` with its 32-bit accumulator returns a
non-negative total, equal to the exact sum of the movements: `4999 * count` stays
below `2^31`. -/
theorem fcfs32_nonneg (r : List Int) (p : Int) (_hne : r ≠ [])
    (hr : ∀ x ∈ r, 0 ≤ x ∧ x ≤ CYLINDERS - 1) (hp : 0 ≤ p ∧ p ≤ CYLINDERS - 1)
    (hlen : r.length ≤ 429582) :
    0 ≤ fcfs32 r p ∧ fcfs32 r p = fcfs r p := by
  obtain ⟨h0, h1⟩ := fcfs_bounds r p hr hp
  have h2 : fcfs32 r p = fcfs r p := by
    rw [fcfs32_eq_wrap r p hr hp]
    apply wrap32_of_range
    simp only [CYLINDERS] at h1
    have : (r.length : Int) ≤ 429582 := by exact_mod_cast hlen
    omega
  exact ⟨h2 ▸ h0, h2⟩

/-- C12 (amended) on the reference scenario. -/
theorem fcfs32_nonneg_witness :
    0 ≤ fcfs32 [2150, 3904, 986, 2774, 1431] 2546 ∧
    fcfs32 [2150, 3904, 986, 2774, 1431] 2546 = fcfs [2150, 3904, 986, 2774, 1431] 2546 :=
  fcfs32_nonneg [2150, 3904, 986, 2774, 1431] 2546 (by decide) (by decide) (by decide)
    (by decide)

/-! ## FCFS as the sum of the movements -/

/-- While the exact sum of the movements stays below `2^31`, the 32-bit loop of `fcfs`
holds that sum in its accumulator. -/
theorem foldl_serve32_prefix (r : List Int) (p : Int) (n : Nat)
    (hfit : ∑ i in Finset.range n, |r.getD i 0 - (if i = 0 then p else r.getD (i - 1) 0)|
      < 2147483648) :
    (List.range n).foldl (serve32 r) (0, p)
      = (∑ i in Finset.range n, |r.getD i 0 - (if i = 0 then p else r.getD (i - 1) 0)|,
          if n = 0 then p else r.getD (n - 1) 0) := by
  induction n with
  | zero => simp
  | succ n ih =>
    rw [Finset.sum_range_succ] at hfit
    have hS : 0 ≤ ∑ i in Finset.range n,
        |r.getD i 0 - (if i = 0 then p else r.getD (i - 1) 0)| :=
      Finset.sum_nonneg (fun i _ => abs_nonneg _)
    have hterm : 0 ≤ |r.getD n 0 - (if n = 0 then p else r.getD (n - 1) 0)| := abs_nonneg _
    rw [List.range_succ, List.foldl_append, ih (by omega), Finset.sum_range_succ,
      List.foldl_cons, List.foldl_nil]
    refine Prod.ext ?_ (by simp [serve32])
    simp only [serve32]
    rw [← Int.natCast_natAbs] at hfit hterm ⊢
    have h1 : wrap32 (r.getD n 0 - (if n = 0 then p else r.getD (n - 1) 0))
        = r.getD n 0 - (if n = 0 then p else r.getD (n - 1) 0) :=
      wrap32_of_range _ (by omega)
    rw [h1]
    exact wrap32_of_range _ (by omega)

/-- Requests and head position inside the disk, at most 429582 of them: the exact sum of
the movements stays below `2^31`. -/
theorem sum_abs_fits_of_in_range (r : List Int) (p : Int)
    (hr : ∀ x ∈ r, 0 ≤ x ∧ x ≤ CYLINDERS - 1) (hp : 0 ≤ p ∧ p ≤ CYLINDERS - 1)
    (hlen : r.length ≤ 429582) :
    ∑ i in Finset.range r.length, |r.getD i 0 - (if i = 0 then p else r.getD (i - 1) 0)|
      < 2147483648 := by
  rw [← fcfs_exact_sum]
  have h1 := (fcfs_bounds r p hr hp).2
  simp only [CYLINDERS] at h1
  have : (r.length : Int) ≤ 429582 := by exact_mod_cast hlen
  omega

/-- C1 (as stated, refuted): the accumulator of `fcfs` is a 32-bit `int`. For the
requests 2147483647, 0, 2147483647 served from position 0 the sum of the movements is
6442450941 and `fcfs` returns 2147483645; for 429583 requests inside the disk,
alternating between cylinders 4999 and 0 and served from cylinder 0, the sum is
2147485417 and `fcfs` returns -2147481879. -/
theorem fcfs32_sum_counterexample :
    fcfs32 [2147483647, 0, 2147483647] 0 = 2147483645 ∧
    (∑ i in Finset.range ([2147483647, 0, 2147483647] : List Int).length,
      |([2147483647, 0, 2147483647] : List Int).getD i 0
        - (if i = 0 then 0 else ([2147483647, 0, 2147483647] : List Int).getD (i - 1) 0)|)
      = 6442450941 ∧
    fcfs32 (zigzag 429583) 0 = -2147481879 ∧
    (∑ i in Finset.range (zigzag 429583).length,
      |(zigzag 429583).getD i 0 - (if i = 0 then 0 else (zigzag 429583).getD (i - 1) 0)|)
      = 2147485417 ∧
    fcfs32 [2147483647, 0, 2147483647] 0
      ≠ ∑ i in Finset.range ([2147483647, 0, 2147483647] : List Int).length,
          |([2147483647, 0, 2147483647] : List Int).getD i 0
            - (if i = 0 then 0 else ([2147483647, 0, 2147483647] : List Int).getD (i - 1) 0)| ∧
    fcfs32 (zigzag 429583) 0
      ≠ ∑ i in Finset.range (zigzag 429583).length,
          |(zigzag 429583).getD i 0
            - (if i = 0 then 0 else (zigzag 429583).getD (i - 1) 0)| := by
  have h1 : fcfs (zigzag 429583) 0 = 2147485417 := by
    rw [fcfs_zigzag]
    norm_num
  have h2 : fcfs32 (zigzag 429583) 0 = -2147481879 := by
    rw [fcfs32_eq_wrap _ _ (zigzag_in_range _) (by decide), h1]
    decide
  have h3 : fcfs [2147483647, 0, 2147483647] 0 = 6442450941 := by decide
  have h4 : fcfs32 [2147483647, 0, 2147483647] 0 = 2147483645 := by decide
  refine ⟨h4, ?_, h2, ?_, ?_, ?_⟩
  · rw [← fcfs_exact_sum, h3]
  · rw [← fcfs_exact_sum, h1]
  · rw [← fcfs_exact_sum, h3, h4]
    decide
  · rw [← fcfs_exact_sum, h1, h2]
    decide

/-- C1 (amended): for every request list `r` (any length, including empty) and every
initial position `p` such that the sum of the movements `|r[i] - prev_i|` (with
`prev_0 = p` and `prev_i = r[i-1]`, arrival order, no sorting) is below `2^31`, `fcfs`
with its 32-bit accumulator returns exactly that sum. -/
theorem fcfs32_eq_sum_abs (r : List Int) (p : Int)
    (hfit : ∑ i in Finset.range r.length,
        |r.getD i 0 - (if i = 0 then p else r.getD (i - 1) 0)| < 2147483648) :
    fcfs32 r p
      = ∑ i in Finset.range r.length,
          |r.getD i 0 - (if i = 0 then p else r.getD (i - 1) 0)| := by
  rw [fcfs32, foldl_serve32_prefix r p r.length hfit]

/-- C1 (amended) on the reference scenario: `396 + 1754 + 2918 + 1788 + 1343 = 8199`. -/
theorem fcfs32_eq_sum_abs_witness :
    fcfs32 [2150, 3904, 986, 2774, 1431] 2546 = 8199 :=
  (fcfs32_eq_sum_abs [2150, 3904, 986, 2774, 1431] 2546
    (sum_abs_fits_of_in_range _ _ (by decide) (by decide) (by decide))).trans
    (by rw [← fcfs_exact_sum]; decide)

/-! ## The caller's array -/

theorem foldl_copyStep_requests (l : List Nat) (m : Mem) :
    (l.foldl copyStep m).requests = m.requests := by
  induction l generalizing m with
  | nil => rfl
  | cons i rest ih => rw [List.foldl_cons, ih]; rfl

theorem foldl_swapStepMem_requests (l : List Nat) (m : Mem) :
    (l.foldl swapStepMem m).requests = m.requests := by
  induction l generalizing m with
  | nil => rfl
  | cons i rest ih => rw [List.foldl_cons, ih]; rfl

theorem foldl_sortPassMem_requests (count : Nat) (l : List Nat) (m : Mem) :
    (l.foldl (sortPassMem count) m).requests = m.requests := by
  induction l generalizing m with
  | nil => rfl
  | cons i rest ih =>
    rw [List.foldl_cons, ih]
    exact foldl_swapStepMem_requests _ m

/-- Allocation, copy and sort leave the caller's array as it was, whatever the allocated
block holds. -/
theorem prepareMem_requests (r g : List Int) (count : Nat) :
    (prepareMem r g count).requests = r := by
  unfold prepareMem
  simp only
  rw [foldl_sortPassMem_requests, foldl_copyStep_requests]

theorem foldl_swapStepMem_queue (l : List Nat) (m : Mem) :
    (l.foldl swapStepMem m).queue = l.foldl swapStep m.queue := by
  induction l generalizing m with
  | nil => rfl
  | cons i rest ih => rw [List.foldl_cons, ih]; rfl

theorem foldl_sortPassMem_queue (count : Nat) (l : List Nat) (m : Mem) :
    (l.foldl (sortPassMem count) m).queue = l.foldl (sortPass count) m.queue := by
  induction l generalizing m with
  | nil => rfl
  | cons i rest ih =>
    rw [List.foldl_cons, ih, List.foldl_cons]
    congr 1
    exact foldl_swapStepMem_queue _ m

/-- After `n` iterations of the copy loop the first `n` cells of `queue` hold the first
`n` requests. -/
theorem foldl_copyStep_queue (r g : List Int) (hg : g.length = r.length) (n : Nat)
    (hn : n ≤ r.length) :
    ((List.range n).foldl copyStep { requests := r, queue := g }).queue
      = r.take n ++ g.drop n := by
  induction n with
  | zero => simp
  | succ n ih =>
    have hn2 : n < r.length := by omega
    rw [List.range_succ, List.foldl_append, List.foldl_cons, List.foldl_nil]
    simp only [copyStep]
    rw [ih (by omega), foldl_copyStep_requests, List.getD_eq_getElem _ _ hn2,
      List.set_append_right _ _ (by simp), List.drop_eq_getElem_cons (by omega : n < g.length)]
    have h0 : n - (List.take n r).length = 0 := by
      rw [List.length_take]
      omega
    rw [h0, List.set_cons_zero, List.take_succ, List.getElem?_eq_getElem hn2]
    simp only [Option.toList, List.append_assoc, List.cons_append, List.nil_append]

theorem prepareMem_queue (r g : List Int) (hg : g.length = r.length) :
    (prepareMem r g r.length).queue = sortQueue r.length r := by
  unfold prepareMem
  simp only
  rw [foldl_sortPassMem_queue, foldl_copyStep_queue r g hg r.length (le_refl _),
    List.drop_of_length_le (by omega), List.take_length, List.append_nil]
  rfl

/-- C13: `scan` and `cscan` leave the caller's request array as it was (the copy and the
sort write to the allocated `queue` only), they return on that memory state the totals
of `scan` and `cscan`, and a second call with the same arguments returns the same
total. `g` and `g2` are the unspecified initial contents of the two allocated blocks. -/
theorem scan_cscan_frame (r g g2 : List Int) (p d : Int) (hg : g.length = r.length)
    (hg2 : g2.length = r.length) :
    (scanMem r g p d).2 = r ∧ (cscanMem r g p d).2 = r ∧
    (scanMem r g p d).1 = scan r p d ∧ (cscanMem r g p d).1 = cscan r p d ∧
    (scanMem (scanMem r g p d).2 g2 p d).1 = (scanMem r g p d).1 ∧
    (cscanMem (cscanMem r g p d).2 g2 p d).1 = (cscanMem r g p d).1 := by
  have h1 : (scanMem r g p d).2 = r := prepareMem_requests r g r.length
  have h2 : (cscanMem r g p d).2 = r := prepareMem_requests r g r.length
  have h3 : ∀ g3 : List Int, g3.length = r.length → (scanMem r g3 p d).1 = scan r p d := by
    intro g3 hg3
    rw [scan_eq_sweep, ← prepareMem_queue r g3 hg3]
    rfl
  have h4 : ∀ g3 : List Int, g3.length = r.length → (cscanMem r g3 p d).1 = cscan r p d := by
    intro g3 hg3
    rw [cscan_eq_sweep, ← prepareMem_queue r g3 hg3]
    rfl
  refine ⟨h1, h2, h3 g hg, h4 g hg, ?_, ?_⟩
  · rw [h1, h3 g2 hg2, h3 g hg]
  · rw [h2, h4 g2 hg2, h4 g hg]

/-- C13 on the reference scenario, with allocated blocks holding arbitrary values. -/
theorem scan_cscan_frame_witness :
    (scanMem [2150, 3904, 986, 2774, 1431] [7, 7, 7, 7, 7] 2546 DIRECTION_OUTWARD).2
      = [2150, 3904, 986, 2774, 1431] ∧
    (cscanMem [2150, 3904, 986, 2774, 1431] [7, 7, 7, 7, 7] 2546 DIRECTION_OUTWARD).2
      = [2150, 3904, 986, 2774, 1431] ∧
    (scanMem [2150, 3904, 986, 2774, 1431] [7, 7, 7, 7, 7] 2546 DIRECTION_OUTWARD).1
      = scan [2150, 3904, 986, 2774, 1431] 2546 DIRECTION_OUTWARD ∧
    (cscanMem [2150, 3904, 986, 2774, 1431] [7, 7, 7, 7, 7] 2546 DIRECTION_OUTWARD).1
      = cscan [2150, 3904, 986, 2774, 1431] 2546 DIRECTION_OUTWARD ∧
    (scanMem (scanMem [2150, 3904, 986, 2774, 1431] [7, 7, 7, 7, 7] 2546
        DIRECTION_OUTWARD).2 [1, 2, 3, 4, 5] 2546 DIRECTION_OUTWARD).1
      = (scanMem [2150, 3904, 986, 2774, 1431] [7, 7, 7, 7, 7] 2546 DIRECTION_OUTWARD).1 ∧
    (cscanMem (cscanMem [2150, 3904, 986, 2774, 1431] [7, 7, 7, 7, 7] 2546
        DIRECTION_OUTWARD).2 [1, 2, 3, 4, 5] 2546 DIRECTION_OUTWARD).1
      = (cscanMem [2150, 3904, 986, 2774, 1431] [7, 7, 7, 7, 7] 2546 DIRECTION_OUTWARD).1 :=
  scan_cscan_frame [2150, 3904, 986, 2774, 1431] [7, 7, 7, 7, 7] [1, 2, 3, 4, 5] 2546
    DIRECTION_OUTWARD (by decide) (by decide)

/-! ## SCAN and C-SCAN with a 32-bit accumulator -/

theorem foldl_serve32_wrap_state (q : List Int) (hq : ∀ x ∈ q, 0 ≤ x ∧ x ≤ CYLINDERS - 1)
    (idx : List Nat) (st : Int × Int) (hc : 0 ≤ st.2 ∧ st.2 ≤ CYLINDERS - 1) :
    idx.foldl (serve32 q) (wrap32 st.1, st.2)
      = (wrap32 (idx.foldl (serve q) st).1, (idx.foldl (serve q) st).2) :=
  foldl_serve32_wrap q hq idx st.1 st.2 hc

theorem padOutward32_wrap (st : Int × Int) :
    padOutward32 (wrap32 st.1, st.2) = (wrap32 (padOutward st).1, (padOutward st).2) := by
  unfold padOutward32 padOutward
  simp only [CYLINDERS]
  split
  · refine Prod.ext ?_ rfl
    simp only [wrap32]
    omega
  · rfl

theorem padInward32_wrap (st : Int × Int) :
    padInward32 (wrap32 st.1, st.2) = (wrap32 (padInward st).1, (padInward st).2) := by
  unfold padInward32 padInward
  split
  · refine Prod.ext ?_ rfl
    simp only [wrap32]
    omega
  · rfl

theorem padOutward_snd_range (st : Int × Int) (hc : 0 ≤ st.2 ∧ st.2 ≤ CYLINDERS - 1) :
    0 ≤ (padOutward st).2 ∧ (padOutward st).2 ≤ CYLINDERS - 1 := by
  unfold padOutward
  split
  · show 0 ≤ CYLINDERS - 1 ∧ CYLINDERS - 1 ≤ CYLINDERS - 1
    decide
  · exact hc

theorem padInward_snd_range (st : Int × Int) (hc : 0 ≤ st.2 ∧ st.2 ≤ CYLINDERS - 1) :
    0 ≤ (padInward st).2 ∧ (padInward st).2 ≤ CYLINDERS - 1 := by
  unfold padInward
  split
  · show (0 : Int) ≤ 0 ∧ (0 : Int) ≤ CYLINDERS - 1
    decide
  · exact hc

theorem foldl_serve32_start (q : List Int) (hq : ∀ x ∈ q, 0 ≤ x ∧ x ≤ CYLINDERS - 1)
    (idx : List Nat) (p : Int) (hp : 0 ≤ p ∧ p ≤ CYLINDERS - 1) :
    idx.foldl (serve32 q) (0, p)
      = (wrap32 (idx.foldl (serve q) (0, p)).1, (idx.foldl (serve q) (0, p)).2) := by
  have h := foldl_serve32_wrap q hq idx 0 p hp
  have h0 : wrap32 0 = 0 := by decide
  rw [h0] at h
  exact h

theorem wrap32_add_cylinders (t : Int) :
    wrap32 (wrap32 t + (CYLINDERS - 1)) = wrap32 (t + (CYLINDERS - 1)) := by
  simp only [wrap32, CYLINDERS]
  omega

/-- On an in-range queue and head position the 32-bit sweep of `scan` is the exact sweep
reduced once at the end. -/
theorem scanSweep32_wrap (q : List Int) (count : Nat) (p d : Int)
    (hq : ∀ x ∈ q, 0 ≤ x ∧ x ≤ CYLINDERS - 1) (hp : 0 ≤ p ∧ p ≤ CYLINDERS - 1) :
    scanSweep32 q count p d = wrap32 (scanSweep q count p d) := by
  unfold scanSweep32 scanSweep
  split
  · simp only
    rw [foldl_serve32_start q hq _ p hp, padOutward32_wrap,
      foldl_serve32_wrap_state q hq _ _
        (padOutward_snd_range _ (foldl_serve_snd_range q hq _ _ hp))]
  · simp only
    rw [foldl_serve32_start q hq _ p hp, padInward32_wrap,
      foldl_serve32_wrap_state q hq _ _
        (padInward_snd_range _ (foldl_serve_snd_range q hq _ _ hp))]

/-- On an in-range queue and head position the 32-bit sweep of `cscan` is the exact sweep
reduced once at the end. -/
theorem cscanSweep32_wrap (q : List Int) (count : Nat) (p d : Int)
    (hq : ∀ x ∈ q, 0 ≤ x ∧ x ≤ CYLINDERS - 1) (hp : 0 ≤ p ∧ p ≤ CYLINDERS - 1) :
    cscanSweep32 q count p d = wrap32 (cscanSweep q count p d) := by
  unfold cscanSweep32 cscanSweep
  split
  · simp only
    rw [foldl_serve32_start q hq _ p hp, padOutward32_wrap, wrap32_add_cylinders,
      foldl_serve32_wrap q hq _ _ 0 (by decide)]
  · simp only
    rw [foldl_serve32_start q hq _ p hp, padInward32_wrap, wrap32_add_cylinders,
      foldl_serve32_wrap q hq _ _ (CYLINDERS - 1) (by decide)]

theorem sortQueue_in_range (r : List Int) (hr : ∀ x ∈ r, 0 ≤ x ∧ x ≤ CYLINDERS - 1) :
    ∀ x ∈ sortQueue r.length r, 0 ≤ x ∧ x ≤ CYLINDERS - 1 :=
  fun x hx => hr x ((sortQueue_sorted_perm r).2.subset hx)

theorem scan32_eq_wrap (r : List Int) (p d : Int) (hr : ∀ x ∈ r, 0 ≤ x ∧ x ≤ CYLINDERS - 1)
    (hp : 0 ≤ p ∧ p ≤ CYLINDERS - 1) : scan32 r p d = wrap32 (scan r p d) :=
  scanSweep32_wrap _ _ p d (sortQueue_in_range r hr) hp

theorem cscan32_eq_wrap (r : List Int) (p d : Int) (hr : ∀ x ∈ r, 0 ≤ x ∧ x ≤ CYLINDERS - 1)
    (hp : 0 ≤ p ∧ p ≤ CYLINDERS - 1) : cscan32 r p d = wrap32 (cscan r p d) :=
  cscanSweep32_wrap _ _ p d (sortQueue_in_range r hr) hp

/-! ## Bounds on the totals -/

theorem headD_prop (P : Int → Prop) (l : List Int) (d : Int) (hd : P d)
    (hl : ∀ x ∈ l, P x) : P (l.headD d) := by
  cases l with
  | nil => exact hd
  | cons a t => exact hl a (List.mem_cons_self a t)

/-- The boundary pads never decrease the accumulator. -/
theorem pad_mono (st : Int × Int) : st.1 ≤ (padOutward st).1 ∧ st.1 ≤ (padInward st).1 := by
  unfold padOutward padInward
  constructor
  · split
    · simp only
      omega
    · exact le_refl _
  · split
    · simp only
      omega
    · exact le_refl _

/-- Along a service loop the accumulator never decreases: its value after any initial
part of the loop is at most its final value. Together with `pad_mono` and the upper
bounds below, every intermediate value of the accumulator of `scan` and `cscan` lies
between 0 and `2 (N-1)`. -/
theorem foldl_serve_prefix_le (q : List Int) (idx1 idx2 : List Nat) (st : Int × Int) :
    (idx1.foldl (serve q) st).1 ≤ ((idx1 ++ idx2).foldl (serve q) st).1 := by
  rw [List.foldl_append]
  exact foldl_serve_mono q idx2 _

/-- Bounds on both totals and their order, for requests and head position inside the
disk, in either branch of the direction test. -/
theorem totals_bounds (r : List Int) (p d : Int) (hr : ∀ x ∈ r, 0 ≤ x ∧ x ≤ CYLINDERS - 1)
    (hp : 0 ≤ p ∧ p ≤ CYLINDERS - 1) :
    0 ≤ scan r p d ∧ scan r p d ≤ 2 * (CYLINDERS - 1) ∧
    CYLINDERS - 1 ≤ cscan r p d ∧ cscan r p d ≤ 2 * (CYLINDERS - 1) ∧
    scan r p d ≤ cscan r p d := by
  by_cases hd : d = DIRECTION_OUTWARD
  · subst hd
    obtain ⟨lo, hi, -, hperm, hlo, -, hscan, hcscan⟩ := outward_closed_form r p hr hp
    have hrlo : ∀ x ∈ lo, 0 ≤ x ∧ x ≤ CYLINDERS - 1 := fun x hx =>
      hr x (hperm.subset (List.mem_append_left hi hx))
    have h1 := headD_prop (fun y => 0 ≤ y ∧ y ≤ CYLINDERS - 1) lo (CYLINDERS - 1)
      (by decide) hrlo
    have h2 := getLastD_prop (fun y => 0 ≤ y ∧ y ≤ p) lo 0 ⟨le_refl _, hp.1⟩
      (fun x hx => ⟨(hrlo x hx).1, le_of_lt (hlo x hx)⟩)
    rw [hscan, hcscan]
    simp only [CYLINDERS] at *
    omega
  · obtain ⟨lo, hi, -, hperm, -, hhi, hscan, hcscan⟩ := inward_closed_form r p d hd hr hp
    have hrhi : ∀ x ∈ hi, 0 ≤ x ∧ x ≤ CYLINDERS - 1 := fun x hx =>
      hr x (hperm.subset (List.mem_append_right lo hx))
    have h1 := headD_prop (fun y => p ≤ y ∧ y ≤ CYLINDERS - 1) hi (CYLINDERS - 1)
      ⟨hp.2, le_refl _⟩ (fun x hx => ⟨le_of_lt (hhi x hx), (hrhi x hx).2⟩)
    have h2 := getLastD_prop (fun y => 0 ≤ y ∧ y ≤ CYLINDERS - 1) hi 0 (by decide) hrhi
    rw [hscan, hcscan]
    simp only [CYLINDERS] at *
    omega

/-! ## Inward as the mirror image of outward -/

theorem exists_least (l : List Int) (hne : l ≠ []) : ∃ m ∈ l, ∀ x ∈ l, m ≤ x := by
  induction l with
  | nil => exact absurd rfl hne
  | cons a t ih =>
    by_cases ht : t = []
    · subst ht
      exact ⟨a, by simp, by simp⟩
    · obtain ⟨m, hm, hmin⟩ := ih ht
      by_cases ham : a ≤ m
      · refine ⟨a, by simp, ?_⟩
        intro x hx
        rcases List.mem_cons.1 hx with rfl | hx
        · exact le_refl _
        · exact le_trans ham (hmin x hx)
      · refine ⟨m, List.mem_cons_of_mem a hm, ?_⟩
        intro x hx
        rcases List.mem_cons.1 hx with rfl | hx
        · omega
        · exact hmin x hx

theorem exists_greatest (l : List Int) (hne : l ≠ []) : ∃ m ∈ l, ∀ x ∈ l, x ≤ m := by
  induction l with
  | nil => exact absurd rfl hne
  | cons a t ih =>
    by_cases ht : t = []
    · subst ht
      exact ⟨a, by simp, by simp⟩
    · obtain ⟨m, hm, hmax⟩ := ih ht
      by_cases ham : m ≤ a
      · refine ⟨a, by simp, ?_⟩
        intro x hx
        rcases List.mem_cons.1 hx with rfl | hx
        · exact le_refl _
        · exact le_trans (hmax x hx) ham
      · refine ⟨m, List.mem_cons_of_mem a hm, ?_⟩
        intro x hx
        rcases List.mem_cons.1 hx with rfl | hx
        · omega
        · exact hmax x hx

/-- C16: with the reflection `x ↦ N-1 - x` of the disk, for requests and head position
inside the disk, `scan` and `cscan` inward return the totals of `scan` and `cscan`
outward on the reflected requests and the reflected head position. -/
theorem inward_mirrors_outward (r : List Int) (p : Int)
    (hr : ∀ x ∈ r, 0 ≤ x ∧ x ≤ CYLINDERS - 1) (hp : 0 ≤ p ∧ p ≤ CYLINDERS - 1) :
    scan r p DIRECTION_INWARD
      = scan (r.map (fun x => CYLINDERS - 1 - x)) (CYLINDERS - 1 - p) DIRECTION_OUTWARD ∧
    cscan r p DIRECTION_INWARD
      = cscan (r.map (fun x => CYLINDERS - 1 - x)) (CYLINDERS - 1 - p) DIRECTION_OUTWARD := by
  have hr2 : ∀ y ∈ r.map (fun x => CYLINDERS - 1 - x), 0 ≤ y ∧ y ≤ CYLINDERS - 1 := by
    intro y hy
    obtain ⟨x, hx, rfl⟩ := List.mem_map.1 hy
    have := hr x hx
    constructor <;> omega
  have hp2 : 0 ≤ CYLINDERS - 1 - p ∧ CYLINDERS - 1 - p ≤ CYLINDERS - 1 := by
    constructor <;> omega
  by_cases hex : ∃ x ∈ r, p < x
  · obtain ⟨x0, hx0, hx0p⟩ := hex
    obtain ⟨M, hM, hmax⟩ := exists_greatest r (List.ne_nil_of_mem hx0)
    have hMp : p < M := lt_of_lt_of_le hx0p (hmax x0 hx0)
    have hf0 : x0 ∈ r.filter (fun x => decide (p < x)) := by simp [hx0, hx0p]
    obtain ⟨V, hV, hmin⟩ := exists_least _ (List.ne_nil_of_mem hf0)
    have hV2 : V ∈ r ∧ p < V := by simpa using hV
    have hmin2 : ∀ x ∈ r, p < x → V ≤ x := fun x hx hxp => hmin x (by simp [hx, hxp])
    rw [scan_inward_some_above r p _ M inward_ne_outward hr hp hM hMp hmax,
      cscan_inward_some_above r p _ V inward_ne_outward hr hp hV2.1 hV2.2 hmin2,
      scan_outward_some_below _ _ (CYLINDERS - 1 - M) hr2 hp2
        (List.mem_map.2 ⟨M, hM, rfl⟩) (by omega)
        (fun y hy => by
          obtain ⟨x, hx, rfl⟩ := List.mem_map.1 hy
          have := hmax x hx
          omega),
      cscan_outward_some_below _ _ (CYLINDERS - 1 - V) hr2 hp2
        (List.mem_map.2 ⟨V, hV2.1, rfl⟩) (by omega)
        (fun y hy hyp => by
          obtain ⟨x, hx, rfl⟩ := List.mem_map.1 hy
          have := hmin2 x hx (by omega)
          omega)]
    constructor <;> ring
  · have hnone : ∀ x ∈ r, x ≤ p := fun x hx => not_lt.1 (fun h => hex ⟨x, hx, h⟩)
    have hnone2 : ∀ y ∈ r.map (fun x => CYLINDERS - 1 - x), CYLINDERS - 1 - p ≤ y := by
      intro y hy
      obtain ⟨x, hx, rfl⟩ := List.mem_map.1 hy
      have := hnone x hx
      omega
    rw [scan_inward_none_above r p _ inward_ne_outward hr hp hnone,
      cscan_inward_none_above r p _ inward_ne_outward hr hp hnone,
      scan_outward_none_below _ _ hr2 hp2 hnone2,
      cscan_outward_none_below _ _ hr2 hp2 hnone2]
    constructor <;> ring

/-- C16 on the reference scenario: the reflected head position is 2453. -/
theorem inward_mirrors_outward_witness :
    scan [2150, 3904, 986, 2774, 1431] 2546 DIRECTION_INWARD
      = scan ([2150, 3904, 986, 2774, 1431].map (fun x => CYLINDERS - 1 - x))
          (CYLINDERS - 1 - 2546) DIRECTION_OUTWARD ∧
    cscan [2150, 3904, 986, 2774, 1431] 2546 DIRECTION_INWARD
      = cscan ([2150, 3904, 986, 2774, 1431].map (fun x => CYLINDERS - 1 - x))
          (CYLINDERS - 1 - 2546) DIRECTION_OUTWARD :=
  inward_mirrors_outward [2150, 3904, 986, 2774, 1431] 2546 (by decide) (by decide)

/-! ## Duplicate requests -/

theorem sorted_headD_congr (l1 l2 : List Int) (d : Int) (h1 : l1.Sorted (· ≤ ·))
    (h2 : l2.Sorted (· ≤ ·)) (h : ∀ x, x ∈ l1 ↔ x ∈ l2) : l1.headD d = l2.headD d := by
  cases l1 with
  | nil =>
    cases l2 with
    | nil => rfl
    | cons b t => exact absurd ((h b).2 (List.mem_cons_self b t)) (List.not_mem_nil b)
  | cons a t =>
    rw [List.headD_cons]
    exact (headD_eq_of_least l2 d a h2 ((h a).1 (List.mem_cons_self a t)) (fun x hx => by
      rcases List.mem_cons.1 ((h x).2 hx) with rfl | hx2
      · exact le_refl _
      · exact List.rel_of_sorted_cons h1 x hx2)).symm

theorem sorted_getLastD_congr (l1 l2 : List Int) (d : Int) (h1 : l1.Sorted (· ≤ ·))
    (h2 : l2.Sorted (· ≤ ·)) (h : ∀ x, x ∈ l1 ↔ x ∈ l2) :
    l1.getLastD d = l2.getLastD d := by
  by_cases hne : l1 = []
  · subst hne
    cases l2 with
    | nil => rfl
    | cons b t => exact absurd ((h b).2 (List.mem_cons_self b t)) (List.not_mem_nil b)
  · obtain ⟨m, hm, hmax⟩ := exists_greatest l1 hne
    rw [getLastD_eq_of_greatest l1 d m h1 hm hmax,
      getLastD_eq_of_greatest l2 d m h2 ((h m).1 hm) (fun x hx => hmax x ((h x).2 hx))]

/-- Both totals depend only on which cylinders are requested, not on how often. -/
theorem totals_congr_mem (l1 l2 : List Int) (p d : Int)
    (hr : ∀ x ∈ l1, 0 ≤ x ∧ x ≤ CYLINDERS - 1) (hp : 0 ≤ p ∧ p ≤ CYLINDERS - 1)
    (h : ∀ x, x ∈ l1 ↔ x ∈ l2) :
    scan l1 p d = scan l2 p d ∧ cscan l1 p d = cscan l2 p d := by
  have hr2 : ∀ x ∈ l2, 0 ≤ x ∧ x ≤ CYLINDERS - 1 := fun x hx => hr x ((h x).2 hx)
  by_cases hd : d = DIRECTION_OUTWARD
  · subst hd
    obtain ⟨lo1, hi1, hs1, hp1, hlo1, hhi1, hscan1, hcscan1⟩ := outward_closed_form l1 p hr hp
    obtain ⟨lo2, hi2, hs2, hp2, hlo2, hhi2, hscan2, hcscan2⟩ := outward_closed_form l2 p hr2 hp
    have hmem : ∀ x, x ∈ lo1 ↔ x ∈ lo2 := by
      intro x
      constructor
      · intro hx
        rcases List.mem_append.1 (hp2.symm.subset ((h x).1
          (hp1.subset (List.mem_append_left hi1 hx)))) with h3 | h3
        · exact h3
        · have := hlo1 x hx
          have := hhi2 x h3
          omega
      · intro hx
        rcases List.mem_append.1 (hp1.symm.subset ((h x).2
          (hp2.subset (List.mem_append_left hi2 hx)))) with h3 | h3
        · exact h3
        · have := hlo2 x hx
          have := hhi1 x h3
          omega
    have hl1 := (List.pairwise_append.1 hs1).1
    have hl2 := (List.pairwise_append.1 hs2).1
    rw [hscan1, hscan2, hcscan1, hcscan2, sorted_headD_congr lo1 lo2 _ hl1 hl2 hmem,
      sorted_getLastD_congr lo1 lo2 _ hl1 hl2 hmem]
    exact ⟨rfl, rfl⟩
  · obtain ⟨lo1, hi1, hs1, hp1, hlo1, hhi1, hscan1, hcscan1⟩ :=
      inward_closed_form l1 p d hd hr hp
    obtain ⟨lo2, hi2, hs2, hp2, hlo2, hhi2, hscan2, hcscan2⟩ :=
      inward_closed_form l2 p d hd hr2 hp
    have hmem : ∀ x, x ∈ hi1 ↔ x ∈ hi2 := by
      intro x
      constructor
      · intro hx
        rcases List.mem_append.1 (hp2.symm.subset ((h x).1
          (hp1.subset (List.mem_append_right lo1 hx)))) with h3 | h3
        · have := hhi1 x hx
          have := hlo2 x h3
          omega
        · exact h3
      · intro hx
        rcases List.mem_append.1 (hp1.symm.subset ((h x).2
          (hp2.subset (List.mem_append_right lo2 hx)))) with h3 | h3
        · have := hhi2 x hx
          have := hlo1 x h3
          omega
        · exact h3
    have hl1 := (List.pairwise_append.1 hs1).2.1
    have hl2 := (List.pairwise_append.1 hs2).2.1
    rw [hscan1, hscan2, hcscan1, hcscan2, sorted_headD_congr hi1 hi2 _ hl1 hl2 hmem,
      sorted_getLastD_congr hi1 hi2 _ hl1 hl2 hmem]
    exact ⟨rfl, rfl⟩

/-- C17: for requests and head position inside the disk, appending a request `x` that
already occurs in the list changes neither the `scan` total nor the `cscan` total, in
either direction. -/
theorem duplicate_request_totals (r : List Int) (p x d : Int)
    (hr : ∀ y ∈ r, 0 ≤ y ∧ y ≤ CYLINDERS - 1) (hp : 0 ≤ p ∧ p ≤ CYLINDERS - 1)
    (hx : x ∈ r) (_hd : d = DIRECTION_OUTWARD ∨ d = DIRECTION_INWARD) :
    scan (r ++ [x]) p d = scan r p d ∧ cscan (r ++ [x]) p d = cscan r p d := by
  have h := totals_congr_mem r (r ++ [x]) p d hr hp (fun y => by
    simp only [List.mem_append, List.mem_singleton]
    constructor
    · exact Or.inl
    · rintro (h | rfl)
      · exact h
      · exact hx)
  exact ⟨h.1.symm, h.2.symm⟩

/-- C17 on the reference scenario with request 986 repeated, outward. -/
theorem duplicate_request_totals_witness :
    scan ([2150, 3904, 986, 2774, 1431] ++ [986]) 2546 DIRECTION_OUTWARD
      = scan [2150, 3904, 986, 2774, 1431] 2546 DIRECTION_OUTWARD ∧
    cscan ([2150, 3904, 986, 2774, 1431] ++ [986]) 2546 DIRECTION_OUTWARD
      = cscan [2150, 3904, 986, 2774, 1431] 2546 DIRECTION_OUTWARD :=
  duplicate_request_totals [2150, 3904, 986, 2774, 1431] 2546 986 DIRECTION_OUTWARD
    (by decide) (by decide) (by decide) (Or.inl rfl)

/-! ## The closed form of SCAN, the bounds and the order of the totals -/

/-- C18: for requests and head position `p` inside the disk (the list may be empty),
`scan` outward returns `(N-1 - p) + R`, where `R = N-1 - mn` with `mn` the smallest
request if some request lies strictly below `p`, and `R = 0` otherwise; `scan` inward
returns `p + R2`, where `R2 = mx` with `mx` the largest request if some request lies
strictly above `p`, and `R2 = 0` otherwise. -/
theorem scan_closed_form (r : List Int) (p mn mx R R2 : Int)
    (hr : ∀ x ∈ r, 0 ≤ x ∧ x ≤ CYLINDERS - 1) (hp : 0 ≤ p ∧ p ≤ CYLINDERS - 1)
    (hR : ((∃ x ∈ r, x < p) ∧ mn ∈ r ∧ (∀ x ∈ r, mn ≤ x) ∧ R = CYLINDERS - 1 - mn) ∨
      ((∀ x ∈ r, p ≤ x) ∧ R = 0))
    (hR2 : ((∃ x ∈ r, p < x) ∧ mx ∈ r ∧ (∀ x ∈ r, x ≤ mx) ∧ R2 = mx) ∨
      ((∀ x ∈ r, x ≤ p) ∧ R2 = 0)) :
    scan r p DIRECTION_OUTWARD = (CYLINDERS - 1 - p) + R ∧
    scan r p DIRECTION_INWARD = p + R2 := by
  constructor
  · rcases hR with ⟨⟨x, hx, hxp⟩, hmn, hmin, rfl⟩ | ⟨hnone, rfl⟩
    · exact scan_outward_some_below r p mn hr hp hmn (lt_of_le_of_lt (hmin x hx) hxp) hmin
    · rw [scan_outward_none_below r p hr hp hnone, add_zero]
  · rcases hR2 with ⟨⟨x, hx, hxp⟩, hmx, hmax, rfl⟩ | ⟨hnone, rfl⟩
    · exact scan_inward_some_above r p _ R2 inward_ne_outward hr hp hmx
        (lt_of_lt_of_le hxp (hmax x hx)) hmax
    · rw [scan_inward_none_above r p _ inward_ne_outward hr hp hnone, add_zero]

/-- C18 with requests at both disk boundaries, and on the empty list. -/
theorem scan_closed_form_witness :
    (scan [4999, 0, 2000] 1000 DIRECTION_OUTWARD = (CYLINDERS - 1 - 1000) + (CYLINDERS - 1 - 0) ∧
      scan [4999, 0, 2000] 1000 DIRECTION_INWARD = 1000 + 4999) ∧
    (scan [] 1000 DIRECTION_OUTWARD = (CYLINDERS - 1 - 1000) + 0 ∧
      scan [] 1000 DIRECTION_INWARD = 1000 + 0) :=
  ⟨scan_closed_form [4999, 0, 2000] 1000 0 4999 (CYLINDERS - 1 - 0) 4999 (by decide)
      (by decide) (Or.inl ⟨⟨0, by decide, by decide⟩, by decide, by decide, rfl⟩)
      (Or.inl ⟨⟨4999, by decide, by decide⟩, by decide, by decide, rfl⟩),
    scan_closed_form [] 1000 0 0 0 0 (by decide) (by decide)
      (Or.inr ⟨by decide, rfl⟩) (Or.inr ⟨by decide, rfl⟩)⟩

/-- C19: for requests (any number of them) and head position inside the disk, in either
direction, `0 ≤ scan ≤ 2 (N-1)` and `N-1 ≤ cscan ≤ 2 (N-1)`; these totals fit the 32-bit
accumulator, with which `scan` and `cscan` return the same values. -/
theorem scan_cscan_bounds (r : List Int) (p d : Int)
    (hr : ∀ x ∈ r, 0 ≤ x ∧ x ≤ CYLINDERS - 1) (hp : 0 ≤ p ∧ p ≤ CYLINDERS - 1)
    (_hd : d = DIRECTION_OUTWARD ∨ d = DIRECTION_INWARD) :
    (0 ≤ scan r p d ∧ scan r p d ≤ 2 * (CYLINDERS - 1)) ∧
    (CYLINDERS - 1 ≤ cscan r p d ∧ cscan r p d ≤ 2 * (CYLINDERS - 1)) ∧
    scan32 r p d = scan r p d ∧ cscan32 r p d = cscan r p d := by
  obtain ⟨h1, h2, h3, h4, -⟩ := totals_bounds r p d hr hp
  refine ⟨⟨h1, h2⟩, ⟨h3, h4⟩, ?_, ?_⟩
  · rw [scan32_eq_wrap r p d hr hp]
    apply wrap32_of_range
    simp only [CYLINDERS] at h1 h2
    omega
  · rw [cscan32_eq_wrap r p d hr hp]
    apply wrap32_of_range
    simp only [CYLINDERS] at h3 h4
    omega

/-- C19 on the reference scenario, inward. -/
theorem scan_cscan_bounds_witness :
    (0 ≤ scan [2150, 3904, 986, 2774, 1431] 2546 DIRECTION_INWARD ∧
      scan [2150, 3904, 986, 2774, 1431] 2546 DIRECTION_INWARD ≤ 2 * (CYLINDERS - 1)) ∧
    (CYLINDERS - 1 ≤ cscan [2150, 3904, 986, 2774, 1431] 2546 DIRECTION_INWARD ∧
      cscan [2150, 3904, 986, 2774, 1431] 2546 DIRECTION_INWARD ≤ 2 * (CYLINDERS - 1)) ∧
    scan32 [2150, 3904, 986, 2774, 1431] 2546 DIRECTION_INWARD
      = scan [2150, 3904, 986, 2774, 1431] 2546 DIRECTION_INWARD ∧
    cscan32 [2150, 3904, 986, 2774, 1431] 2546 DIRECTION_INWARD
      = cscan [2150, 3904, 986, 2774, 1431] 2546 DIRECTION_INWARD :=
  scan_cscan_bounds [2150, 3904, 986, 2774, 1431] 2546 DIRECTION_INWARD (by decide)
    (by decide) (Or.inr rfl)

/-- C20: for requests and head position inside the disk, in either direction, the
`scan` total is at most the `cscan` total. -/
theorem scan_le_cscan (r : List Int) (p d : Int)
    (hr : ∀ x ∈ r, 0 ≤ x ∧ x ≤ CYLINDERS - 1) (hp : 0 ≤ p ∧ p ≤ CYLINDERS - 1)
    (_hd : d = DIRECTION_OUTWARD ∨ d = DIRECTION_INWARD) :
    scan r p d ≤ cscan r p d :=
  (totals_bounds r p d hr hp).2.2.2.2

/-- C20 with every request above the head, outward: 4989 against 9988. -/
theorem scan_le_cscan_witness :
    scan [4000, 3000] 10 DIRECTION_OUTWARD ≤ cscan [4000, 3000] 10 DIRECTION_OUTWARD :=
  scan_le_cscan [4000, 3000] 10 DIRECTION_OUTWARD (by decide) (by decide) (Or.inl rfl)

end DiskScheduling
